/-
Verification of the core components of the Cursor-Writing backend:
the read-through LRU cache (`app/core/cache.py`), the token budgeter
(`app/core/budgeter.py`), the TF-IDF relevance ranker and context selector
(`app/core/context.py`), and the writing-session orchestrator
(`app/core/orchestrator.py`).

Python code is shallowly embedded: dictionaries become association lists
(insertion-ordered, as in CPython), floats used for timestamps, TTLs and
token budgets become rationals, floats used for TF-IDF scores become reals,
and the asynchronous agent pipeline becomes a pure state machine
parameterised by the behaviour of each agent.
-/
import Mathlib

namespace CursorWriting

/-! ## Association-list primitives

CPython `dict` is insertion ordered; `d[k] = v` keeps the position of an
existing key, `del d[k]` removes the unique binding.  `list.remove(x)`
removes the first occurrence. -/

/-- Lookup of the first binding of `k`, as Python `d[k]` / `k in d`. -/
def lookupEntry {β : Type} : List (String × β) → String → Option β
  | [], _ => none
  | (k', v) :: rest, k => if k' = k then some v else lookupEntry rest k

/-- Python `d[k] = v`: replace in place if present, else append. -/
def updateEntry {β : Type} : List (String × β) → String → β → List (String × β)
  | [], k, v => [(k, v)]
  | (k', v') :: rest, k, v =>
      if k' = k then (k, v) :: rest else (k', v') :: updateEntry rest k v

/-- Python `del d[k]`: remove the first binding of `k`. -/
def removeKey {β : Type} : List (String × β) → String → List (String × β)
  | [], _ => []
  | (k', v') :: rest, k => if k' = k then rest else (k', v') :: removeKey rest k

/-- Python `list.remove(x)`: remove the first occurrence of `x`. -/
def removeFirst : List String → String → List String
  | [], _ => []
  | x :: rest, k => if x = k then rest else x :: removeFirst rest k

/-! ## Cache model — `app/core/cache.py` -/

/-- `CacheEntry`: value, creation timestamp and time-to-live in seconds. -/
structure CacheEntry (α : Type) where
  value : α
  timestamp : ℚ
  ttl : ℚ
deriving Repr

/-- `CacheEntry.is_expired`, evaluated at the current time `now`
(`time.time() - self.timestamp > self.ttl`). -/
def CacheEntry.is_expired {α : Type} (e : CacheEntry α) (now : ℚ) : Bool :=
  decide (now - e.timestamp > e.ttl)

/-- State of `LRUCache`: the entry dict and the access-order list. -/
structure LRUCache (α : Type) where
  maxsize : ℕ
  default_ttl : ℚ
  cache : List (String × CacheEntry α)
  access_order : List String

/-- A fresh `LRUCache(maxsize, default_ttl)`. -/
def LRUCache.init (α : Type) (maxsize : ℕ) (default_ttl : ℚ) : LRUCache α :=
  ⟨maxsize, default_ttl, [], []⟩

/-- `LRUCache._update_access`: move `key` to the back of the access order. -/
def LRUCache.update_access {α : Type} (c : LRUCache α) (key : String) : LRUCache α :=
  { c with access_order :=
      (if key ∈ c.access_order then removeFirst c.access_order key else c.access_order)
        ++ [key] }

/-- `LRUCache._evict`: pop the front of the access order and delete that key. -/
def LRUCache.evict {α : Type} (c : LRUCache α) : LRUCache α :=
  match c.access_order with
  | [] => c
  | oldest :: rest =>
      if (lookupEntry c.cache oldest).isSome then
        { c with access_order := rest, cache := removeKey c.cache oldest }
      else
        { c with access_order := rest }

/-- `LRUCache.delete`: returns whether the key was present, and the new state. -/
def LRUCache.delete {α : Type} (c : LRUCache α) (key : String) : Bool × LRUCache α :=
  if (lookupEntry c.cache key).isSome then
    (true,
      { c with
        cache := removeKey c.cache key,
        access_order :=
          if key ∈ c.access_order then removeFirst c.access_order key
          else c.access_order })
  else (false, c)

/-- `LRUCache.get` at time `now`: miss returns `none`; an expired hit is
actively deleted and returns `none`; a live hit refreshes recency. -/
def LRUCache.get {α : Type} (c : LRUCache α) (key : String) (now : ℚ) :
    Option α × LRUCache α :=
  match lookupEntry c.cache key with
  | none => (none, c)
  | some e =>
      if e.is_expired now then (none, (c.delete key).2)
      else (some e.value, c.update_access key)

/-- `LRUCache.set` at time `now`: evict the least-recently-used entry first
when the cache is full and the key is new; then store and refresh recency. -/
def LRUCache.set {α : Type} (c : LRUCache α) (key : String) (value : α)
    (ttl : Option ℚ) (now : ℚ) : LRUCache α :=
  let t := ttl.getD c.default_ttl
  let c1 :=
    if c.cache.length ≥ c.maxsize ∧ (lookupEntry c.cache key).isNone then c.evict
    else c
  let c2 := { c1 with cache := updateEntry c1.cache key ⟨value, now, t⟩ }
  c2.update_access key

/-- Python `str.startswith`: the argument is a character-level prefix. -/
def pyStartsWith (s pre : String) : Bool :=
  pre.data.isPrefixOf s.data

/-- `LRUCache.invalidate_prefix`: delete every key starting with `pre`,
returning how many were deleted. -/
def LRUCache.invalidate_prefix {α : Type} (c : LRUCache α) (pre : String) :
    ℕ × LRUCache α :=
  let keys_to_delete := (c.cache.map Prod.fst).filter (fun k => pyStartsWith k pre)
  (keys_to_delete.length, keys_to_delete.foldl (fun acc k => (acc.delete k).2) c)

/-- Python `":".join`. -/
def joinColon : List String → String
  | [] => ""
  | [x] => x
  | x :: y :: rest => x ++ ":" ++ joinColon (y :: rest)

/-- `StorageCache._make_key`: colon-join category, project id and the
truthy (non-empty) extra arguments. -/
def StorageCache.make_key (category project_id : String) (args : List String) : String :=
  joinColon ([category, project_id] ++ args.filter (fun a => a ≠ ""))

/-- `StorageCache.invalidate_category`: invalidate the `category:project`
key prefix in the underlying LRU cache. -/
def StorageCache.invalidate_category {α : Type} (c : LRUCache α)
    (category project_id : String) : ℕ × LRUCache α :=
  LRUCache.invalidate_prefix c (category ++ ":" ++ project_id)

/-- One observable cache operation, tagged with the wall-clock time at which
it runs. -/
inductive CacheOp (α : Type) where
  | setOp (key : String) (value : α) (ttl : Option ℚ) (now : ℚ)
  | getOp (key : String) (now : ℚ)
  | delOp (key : String)

/-- Run a sequence of cache operations, discarding returned values. -/
def runOps {α : Type} (c : LRUCache α) : List (CacheOp α) → LRUCache α
  | [] => c
  | .setOp k v t now :: rest => runOps (c.set k v t now) rest
  | .getOp k now :: rest => runOps (c.get k now).2 rest
  | .delOp k :: rest => runOps (c.delete k).2 rest

/-- Keys currently stored in the cache dict. -/
def LRUCache.keys {α : Type} (c : LRUCache α) : List String :=
  c.cache.map Prod.fst

/-- Well-formedness of an `LRUCache` state: the dict has no duplicate keys,
the access-order list has no duplicates, and both hold exactly the same
keys.  Every state reachable from a fresh cache satisfies this. -/
def LRUCache.WF {α : Type} (c : LRUCache α) : Prop :=
  c.keys.Nodup ∧ c.access_order.Nodup ∧ c.access_order.Perm c.keys

/-! ## Data model — `app/models/card.py`, `app/models/canon.py`,
`app/models/draft.py` (the fields the core components read) -/

/-- `CharacterCard` (the fields read by the selector and budgeter). -/
structure CharacterCard where
  name : String
  identity : String
  personality : List String
  speech_pattern : String
deriving Repr, DecidableEq

/-- `WorldCard` (the fields read by the selector and budgeter). -/
structure WorldCard where
  name : String
  category : String
  description : String
deriving Repr, DecidableEq

/-- `StyleCard`: opaque to the budgeter, which passes it through verbatim. -/
structure StyleCard where
  narrative_distance : String
  pacing : String
  sentence_style : String
deriving Repr, DecidableEq

/-- `RulesCard`: opaque to the budgeter, which passes it through verbatim. -/
structure RulesCard where
  dos : List String
  donts : List String
deriving Repr, DecidableEq

/-- `Fact` (the fields read by the selector and budgeter). -/
structure Fact where
  statement : String
  importance : String
deriving Repr, DecidableEq

/-- `ChapterSummary` (the fields read by the selector and budgeter). -/
structure ChapterSummary where
  chapter : String
  summary : String
deriving Repr, DecidableEq

/-! ## Token budgeter — `app/core/budgeter.py` -/

/-- A character in the CJK unified ideographs range `[一, 鿿]`. -/
def isChineseChar (ch : Char) : Bool :=
  decide (0x4e00 ≤ ch.toNat ∧ ch.toNat ≤ 0x9fff)

/-- `TokenBudgeter.estimate_tokens` (the same formula as
`app/utils/helpers.py estimate_tokens`): ideographic characters cost
`1/1.5` token, all other characters `1/4`, truncated to an integer. -/
def estimate_tokens (text : String) : ℕ :=
  let chinese_chars := (text.data.filter isChineseChar).length
  let other_chars := text.length - chinese_chars
  (⌊(chinese_chars : ℚ) / 1.5 + (other_chars : ℚ) / 4⌋).toNat

/-- `BudgetConfig` with its default fractions. -/
structure BudgetConfig where
  total_tokens : ℕ := 128000
  system_rules : ℚ := 0.05
  cards : ℚ := 0.15
  canon : ℚ := 0.10
  summaries : ℚ := 0.20
  current_draft : ℚ := 0.30
  output_reserve : ℚ := 0.20
deriving Repr

/-- `TokenBudgeter.get_budget`: the category's fraction (default `0.1` for an
unknown category) of the total, truncated to an integer. -/
def get_budget (cfg : BudgetConfig) (category : String) : ℤ :=
  let frac :=
    if category = "system_rules" then cfg.system_rules
    else if category = "cards" then cfg.cards
    else if category = "canon" then cfg.canon
    else if category = "summaries" then cfg.summaries
    else if category = "current_draft" then cfg.current_draft
    else if category = "output_reserve" then cfg.output_reserve
    else (0.1 : ℚ)
  ⌊(cfg.total_tokens : ℚ) * frac⌋

/-- `TokenBudgeter._serialize_character`. -/
def serialize_character (c : CharacterCard) : String :=
  let parts := [c.name, c.identity]
  let parts := if c.personality ≠ [] then parts ++ [String.intercalate "," c.personality] else parts
  let parts := if c.speech_pattern ≠ "" then parts ++ [c.speech_pattern] else parts
  String.intercalate " " parts

/-- `TokenBudgeter._serialize_world`. -/
def serialize_world (w : WorldCard) : String :=
  w.name ++ " " ++ w.description

/-- The candidate context bundle assembled by the selector and trimmed by the
budgeter (`context` dict in `select_for_writing` / `allocate_context`). -/
structure WritingContext where
  characters : List CharacterCard
  world : List WorldCard
  style : Option StyleCard
  rules : Option RulesCard
  facts : List Fact
  summaries : List ChapterSummary
deriving Repr

/-- The greedy admission loop of `allocate_context`: admit candidates in
order while the running counter stays within `budget`; stop the whole
category at the first overflowing candidate.  Returns the admitted items and
the updated counter. -/
def admitGreedy {α : Type} (cost : α → ℕ) (budget : ℤ) :
    List α → ℕ → List α × ℕ
  | [], counter => ([], counter)
  | x :: xs, counter =>
      if (counter + cost x : ℤ) ≤ budget then
        let res := admitGreedy cost budget xs (counter + cost x)
        (x :: res.1, res.2)
      else ([], counter)

/-- Mutable allocation state of `allocate_context`: the `allocated` dict and
the three `current_tokens` counters (cards shared by characters and world). -/
structure AllocState where
  allocated : WritingContext
  cardsTok : ℕ
  canonTok : ℕ
  summariesTok : ℕ

/-- One iteration of the priority loop of `allocate_context`. -/
def allocStep (context : WritingContext) (cards_budget canon_budget summaries_budget : ℤ)
    (st : AllocState) (category : String) : AllocState :=
  if category = "characters" then
    let res := admitGreedy (fun c => estimate_tokens (serialize_character c))
      cards_budget context.characters st.cardsTok
    { st with
      allocated := { st.allocated with characters := st.allocated.characters ++ res.1 },
      cardsTok := res.2 }
  else if category = "world" then
    let res := admitGreedy (fun w => estimate_tokens (serialize_world w))
      cards_budget context.world st.cardsTok
    { st with
      allocated := { st.allocated with world := st.allocated.world ++ res.1 },
      cardsTok := res.2 }
  else if category = "style" then st
  else if category = "rules" then st
  else if category = "facts" then
    let res := admitGreedy (fun f => estimate_tokens f.statement)
      canon_budget context.facts st.canonTok
    { st with
      allocated := { st.allocated with facts := st.allocated.facts ++ res.1 },
      canonTok := res.2 }
  else if category = "summaries" then
    let res := admitGreedy (fun s => estimate_tokens s.summary)
      summaries_budget context.summaries st.summariesTok
    { st with
      allocated := { st.allocated with summaries := st.allocated.summaries ++ res.1 },
      summariesTok := res.2 }
  else st

/-- The default priority order of `allocate_context`. -/
def defaultPriorities : List String :=
  ["characters", "style", "rules", "facts", "summaries", "world"]

/-- `TokenBudgeter.allocate_context`: greedy-by-priority-order allocation of
the candidate context into the cards / canon / summaries budget groups. -/
def allocate_context (cfg : BudgetConfig) (context : WritingContext)
    (priorities : Option (List String)) : WritingContext :=
  let prio := priorities.getD defaultPriorities
  let cards_budget := get_budget cfg "cards"
  let canon_budget := get_budget cfg "canon"
  let summaries_budget := get_budget cfg "summaries"
  let init : AllocState :=
    ⟨⟨[], [], context.style, context.rules, [], []⟩, 0, 0, 0⟩
  (prio.foldl (allocStep context cards_budget canon_budget summaries_budget) init).allocated

/-! ## TF-IDF relevance ranker — `app/core/context.py`, `TextSimilarity` -/

/-- The fixed stopword set of `TextSimilarity`. -/
def STOPWORDS : List String :=
  ["的", "了", "和", "是", "就", "都", "而", "及", "与", "着",
   "或", "一个", "没有", "我们", "你们", "他们", "它们", "这个",
   "那个", "这些", "那些", "自己", "什么", "这样", "那样", "如何",
   "可以", "因为", "所以", "但是", "然后", "如果", "虽然", "不过",
   "the", "a", "an", "is", "are", "was", "were", "be", "been",
   "being", "have", "has", "had", "do", "does", "did", "will",
   "would", "could", "should", "may", "might", "must", "shall",
   "to", "of", "in", "for", "on", "with", "at", "by", "from",
   "as", "into", "through", "during", "before", "after", "above",
   "below", "between", "under", "again", "further", "then", "once"]

/-- An ASCII letter, the character class of the `[a-zA-Z]+` pattern. -/
def isAsciiAlphaChar (ch : Char) : Bool :=
  decide (('a' ≤ ch ∧ ch ≤ 'z') ∨ ('A' ≤ ch ∧ ch ≤ 'Z'))

/-- Maximal runs of characters satisfying `p`, in order: the behaviour of
`re.findall` with a `[class]+` pattern.  `acc` holds the (reversed) current
run. -/
def splitRunsAux (p : Char → Bool) : List Char → List Char → List (List Char)
  | [], acc => if acc.isEmpty then [] else [acc.reverse]
  | c :: cs, acc =>
      if p c then splitRunsAux p cs (c :: acc)
      else if acc.isEmpty then splitRunsAux p cs []
      else acc.reverse :: splitRunsAux p cs []

/-- Maximal runs of characters satisfying `p`. -/
def splitRuns (p : Char → Bool) (l : List Char) : List (List Char) :=
  splitRunsAux p l []

/-- The n-gram pass over one ideographic run: for each position, the
character pair starting there (when it fits) followed by the single
character. -/
def cjkGrams : List Char → List String
  | [] => []
  | [c] => [String.mk [c]]
  | c1 :: c2 :: rest => String.mk [c1, c2] :: String.mk [c1] :: cjkGrams (c2 :: rest)

/-- `TextSimilarity.tokenize`: ideographic bigrams and single characters,
plus case-folded Latin words, with stopwords and length-1 tokens removed. -/
def tokenize (text : String) : List String :=
  if text = "" then []
  else
    let cjk_tokens := (splitRuns isChineseChar text.data).flatMap cjkGrams
    let english_words :=
      (splitRuns isAsciiAlphaChar (text.data.map Char.toLower)).map
        (fun run => String.mk run)
    let tokens := cjk_tokens ++ english_words
    tokens.filter (fun t => decide (t ∉ STOPWORDS ∧ t.length > 1))

/-- First-occurrence deduplication: the key iteration order of a Python
`Counter` built from the token list. -/
def dedupFirst : List String → List String
  | [] => []
  | x :: xs => x :: dedupFirst (xs.filter (fun y => decide (y ≠ x)))
termination_by l => l.length
decreasing_by
  simp only [List.length_cons]
  exact Nat.lt_succ_of_le (List.length_filter_le _ _)

/-- `TextSimilarity.compute_tf`: token count over total token count. -/
def compute_tf (tokens : List String) : List (String × ℚ) :=
  if tokens.isEmpty then []
  else (dedupFirst tokens).map
    (fun w => (w, (tokens.count w : ℚ) / (tokens.length : ℚ)))

/-- Number of documents containing the token `w`. -/
def docFreq (documents : List (List String)) (w : String) : ℕ :=
  (documents.filter (fun d => decide (w ∈ d))).length

/-- `TextSimilarity.compute_idf` fused with the `idf.get(word, 1.0)` default
used by `compute_tfidf`: tokens present in some document get
`ln(N / (1 + docFreq)) + 1`, absent tokens the default `1.0`. -/
noncomputable def idfValue (documents : List (List String)) (w : String) : ℝ :=
  if docFreq documents w = 0 then 1.0
  else Real.log ((documents.length : ℝ) / (1 + (docFreq documents w : ℝ))) + 1

/-- `TextSimilarity.compute_tfidf`: per-token `tf * idf`. -/
noncomputable def compute_tfidf (tokens : List String) (idf : String → ℝ) :
    List (String × ℝ) :=
  (compute_tf tokens).map (fun p => (p.1, (p.2 : ℝ) * idf p.1))

/-- Python `vec.get(k, 0)` on a sparse vector. -/
def vecGet (vec : List (String × ℝ)) (k : String) : ℝ :=
  match lookupEntry vec k with
  | some v => v
  | none => 0

/-- `TextSimilarity.cosine_similarity` of two sparse vectors; `0` when either
vector is empty or either norm is `0`. -/
noncomputable def cosine_similarity (vec1 vec2 : List (String × ℝ)) : ℝ :=
  if vec1.isEmpty || vec2.isEmpty then 0
  else
    let allKeys := (vec1.map Prod.fst ++ vec2.map Prod.fst).dedup
    let dot_product := (allKeys.map (fun k => vecGet vec1 k * vecGet vec2 k)).sum
    let norm1 := Real.sqrt ((vec1.map (fun p => p.2 ^ 2)).sum)
    let norm2 := Real.sqrt ((vec2.map (fun p => p.2 ^ 2)).sum)
    if norm1 = 0 ∨ norm2 = 0 then 0
    else dot_product / (norm1 * norm2)

/-- `ScoredItem`: an item, its relevance score and its serialized text. -/
structure ScoredItem (α : Type) where
  item : α
  score : ℝ
  text : String

/-- Insertion step of a stable descending sort by score: an element moves
past another only when its score is strictly smaller, so equal scores keep
their original relative order — the semantics of Python's stable
`list.sort(key=score, reverse=True)`. -/
noncomputable def insertDesc {α : Type} (x : ScoredItem α) :
    List (ScoredItem α) → List (ScoredItem α)
  | [] => [x]
  | y :: ys => if x.score < y.score then y :: insertDesc x ys else x :: y :: ys

/-- Stable descending sort by score. -/
noncomputable def sortDesc {α : Type} : List (ScoredItem α) → List (ScoredItem α)
  | [] => []
  | x :: xs => insertDesc x (sortDesc xs)

/-- The scored candidate list built by `rank_by_similarity` before sorting:
IDF is computed over the query plus all candidate texts, and each document
is scored by cosine similarity against the query vector, in the documents'
original order. -/
noncomputable def scoredList {α : Type} (query : String)
    (documents : List (α × String)) : List (ScoredItem α) :=
  let query_tokens := tokenize query
  let doc_tokens_list := documents.map (fun d => tokenize d.2)
  let all_docs := query_tokens :: doc_tokens_list
  let idf := idfValue all_docs
  let query_tfidf := compute_tfidf query_tokens idf
  (documents.zip doc_tokens_list).map
    (fun p => ⟨p.1.1, cosine_similarity query_tfidf (compute_tfidf p.2 idf), p.1.2⟩)

/-- `TextSimilarity.rank_by_similarity`: identity (with score 0) on an empty
query or empty document list, otherwise the stable descending sort of the
scored candidates, truncated to `top_k`. -/
noncomputable def rank_by_similarity {α : Type} (query : String)
    (documents : List (α × String)) (top_k : ℕ) : List (ScoredItem α) :=
  if query = "" || documents.isEmpty then
    (documents.take top_k).map (fun d => ⟨d.1, 0, d.2⟩)
  else
    (sortDesc (scoredList query documents)).take top_k

/-! ## Context selector — `app/core/context.py`, `ContextSelector`

`select_for_writing` first gathers the candidate pools from storage; the
deterministic selection logic that follows is embedded here as a pure
function of those pools. -/

/-- Stage 1 of `select_for_writing`: characters ranked against the goal with
threshold `0.05` (capped at 10), explicitly requested characters always
appended; without cards or a goal, the first 10 cards. -/
noncomputable def selectCharacters (chapter_goal : String)
    (char_cards : List CharacterCard) (characters : List String) :
    List CharacterCard :=
  if ¬char_cards.isEmpty ∧ chapter_goal ≠ "" then
    let char_docs := char_cards.map (fun card =>
      (card, card.name ++ " " ++ card.identity ++ " "
        ++ String.intercalate " " card.personality ++ " " ++ card.speech_pattern))
    let ranked := rank_by_similarity chapter_goal char_docs 10
    let base := (ranked.filter (fun it => decide (it.score > 0.05))).map (·.item)
    if ¬characters.isEmpty then
      char_cards.foldl
        (fun acc card =>
          if card.name ∈ characters ∧ card ∉ acc then acc ++ [card] else acc)
        base
    else base
  else char_cards.take 10

/-- Stage 2 of `select_for_writing`: world cards ranked against the goal
with threshold `0.03` (capped at 5); when nothing clears the threshold (or
there is no goal), fall back to the first 3 world cards. -/
noncomputable def selectWorld (chapter_goal : String)
    (world_cards : List WorldCard) : List WorldCard :=
  let world :=
    if ¬world_cards.isEmpty ∧ chapter_goal ≠ "" then
      let world_docs := world_cards.map (fun card =>
        (card, card.name ++ " " ++ card.category ++ " " ++ card.description))
      ((rank_by_similarity chapter_goal world_docs 5).filter
        (fun it => decide (it.score > 0.03))).map (·.item)
    else []
  if world.isEmpty ∧ ¬world_cards.isEmpty then world_cards.take 3 else world

/-- `priority_order.get(f.importance, 1)`. -/
def priorityVal (importance : String) : ℕ :=
  if importance = "critical" then 0
  else if importance = "normal" then 1
  else if importance = "minor" then 2
  else 1

/-- Python `list.index`: index of the first occurrence. -/
def indexOfFirst {α : Type} [DecidableEq α] : List α → α → ℕ
  | [], _ => 0
  | x :: xs, a => if x = a then 0 else indexOfFirst xs a + 1

/-- Boolean lexicographic order on the sort key `(priority, -index)`. -/
def factKeyLE (a b : ℕ × ℤ) : Bool :=
  decide (a.1 < b.1) || (decide (a.1 = b.1) && decide (a.2 ≤ b.2))

/-- Insertion step of a stable ascending sort by key: an element is placed
before the first element whose key is not smaller, so equal keys keep their
original relative order — the semantics of Python's stable `sorted(key=...)`. -/
def insertAscBy {α : Type} (key : α → ℕ × ℤ) (x : α) : List α → List α
  | [] => [x]
  | y :: ys =>
      if factKeyLE (key x) (key y) then x :: y :: ys else y :: insertAscBy key x ys

/-- Stable ascending sort by key. -/
def sortAscBy {α : Type} (key : α → ℕ × ℤ) : List α → List α
  | [] => []
  | x :: xs => insertAscBy key x (sortAscBy key xs)

/-- Stage 4 of `select_for_writing`: facts sorted by
`(priority, -first-index)`, greedily admitted into a 2000-token sub-budget,
topped up with the most recent 10 when fewer than 5 were selected, and
re-ranked by goal relevance when more than 5 were selected. -/
noncomputable def selectFacts (chapter_goal : String) (all_facts : List Fact) :
    List Fact :=
  if ¬all_facts.isEmpty then
    let sorted_facts := sortAscBy
      (fun f => (priorityVal f.importance, -(indexOfFirst all_facts f : ℤ)))
      all_facts
    let step1 := admitGreedy (fun f => estimate_tokens f.statement) 2000 sorted_facts 0
    let selected :=
      if step1.1.length < 5 ∧ all_facts.length > step1.1.length then
        let recent_facts := (all_facts.drop (all_facts.length - 10)).filter
          (fun f => decide (f ∉ step1.1))
        let step2 := admitGreedy (fun f => estimate_tokens f.statement) 2000
          recent_facts step1.2
        step1.1 ++ step2.1
      else step1.1
    if chapter_goal ≠ "" ∧ selected.length > 5 then
      (rank_by_similarity chapter_goal (selected.map (fun f => (f, f.statement)))
        selected.length).map (·.item)
    else selected
  else []

/-- Stage 5 of `select_for_writing`: the 5 summaries ranked against the goal,
re-scored as `0.7 * relevance + 0.3 * (1 / (1 + originalIndex * 0.2))` and
re-sorted; without a goal, the first 5. -/
noncomputable def selectSummaries (chapter_goal : String)
    (all_summaries : List ChapterSummary) : List ChapterSummary :=
  if ¬all_summaries.isEmpty then
    if chapter_goal ≠ "" then
      let summary_docs := all_summaries.map (fun s => (s, s.summary))
      let ranked := rank_by_similarity chapter_goal summary_docs 5
      let blended := ranked.map (fun it =>
        let orig_idx := all_summaries.findIdx (fun s => decide (s.chapter = it.item.chapter))
        { it with score := it.score * 0.7 + (1 / (1 + (orig_idx : ℝ) * 0.2)) * 0.3 })
      ((sortDesc blended).take 5).map (·.item)
    else all_summaries.take 5
  else []

/-- `ContextSelector.select_for_writing` after the storage fan-out: apply the
per-category selection stages and pass the assembled bundle through the
budget allocator (with the default priority order). -/
noncomputable def select_for_writing (cfg : BudgetConfig)
    (char_cards : List CharacterCard) (world_cards : List WorldCard)
    (style : Option StyleCard) (rules : Option RulesCard)
    (all_facts : List Fact) (all_summaries : List ChapterSummary)
    (chapter_goal : String) (characters : List String) : WritingContext :=
  let context : WritingContext :=
    { characters := selectCharacters chapter_goal char_cards characters
      world := selectWorld chapter_goal world_cards
      style := style
      rules := rules
      facts := selectFacts chapter_goal all_facts
      summaries := selectSummaries chapter_goal all_summaries }
  allocate_context cfg context none

/-! ## Orchestrator — `app/core/orchestrator.py` -/

/-- `SessionStatus`. -/
inductive SessionStatus where
  | idle
  | briefing
  | writing
  | reviewing
  | editing
  | waiting
  | completed
  | error
deriving Repr, DecidableEq

/-- The fields of a `Review` read by the orchestrator. -/
structure Review where
  summary : String
  overall_score : ℚ
deriving Repr, DecidableEq

/-- The uniform agent result contract `{success: bool, ...payload}`; absent
payload keys are `none`. -/
structure AgentResult where
  success : Bool
  review : Option Review := none
  draft : Option String := none
  brief : Option String := none
  version : Option ℕ := none
deriving Repr, DecidableEq

/-- `Orchestrator.QUALITY_THRESHOLD`. -/
def QUALITY_THRESHOLD : ℚ := 0.7

/-- `Orchestrator.MAX_REWRITE_ITERATIONS`. -/
def MAX_REWRITE_ITERATIONS : ℕ := 2

/-- Observable state of the quality-gated loop: the `rewrite_iteration`
counter, the trace of status assignments, the number of writer and reviewer
invocations, every writer result, and the current `write_result` /
`review_result` variables. -/
structure LoopState where
  rewrite_iteration : ℕ
  trace : List SessionStatus
  write_calls : ℕ
  review_calls : ℕ
  write_results : List AgentResult
  write_result : Option AgentResult
  review_result : Option AgentResult
deriving Repr

/-- The `review_feedback` option passed to the writer: on a rewrite
iteration (`i > 0`) with a previous reviewer result carrying a review, that
review's summary. -/
def loopFeedback (s : LoopState) (i : ℕ) : Option String :=
  if s.review_result.isSome ∧ i > 0 then
    match s.review_result with
    | some rr => Option.map Review.summary rr.review
    | none => none
  else none

/-- The quality-gated loop of `start_session`, iterating over the remaining
rewrite indices.  The boolean result is `true` exactly when a writer failure
aborted the session. -/
def loopIter (writer : ℕ → Option String → AgentResult)
    (reviewer : ℕ → AgentResult) :
    List ℕ → LoopState → LoopState × Bool
  | [], s => (s, false)
  | i :: rest, s =>
      let s := { s with rewrite_iteration := i, trace := s.trace ++ [SessionStatus.writing] }
      let feedback : Option String := loopFeedback s i
      let wr := writer i feedback
      let s := { s with
        write_calls := s.write_calls + 1,
        write_results := s.write_results ++ [wr],
        write_result := some wr }
      if wr.success = false then (s, true)
      else
        let s := { s with trace := s.trace ++ [SessionStatus.reviewing],
                          review_calls := s.review_calls + 1 }
        let rr := reviewer i
        let s := { s with review_result := some rr }
        if rr.success = false then (s, false)
        else
          let score := match rr.review with
            | some r => r.overall_score
            | none => 0.8
          if score ≥ QUALITY_THRESHOLD then (s, false)
          else loopIter writer reviewer rest s

/-- The result dict of `start_session`. -/
structure SessionResult where
  success : Bool
  status : SessionStatus
  error : Option String := none
  brief : Option String := none
  draft : Option String := none
  review : Option Review := none
  version : Option ℕ := none
  quality_score : Option ℚ := none
  rewrite_count : ℕ := 0
deriving Repr

/-- The result of a session together with its observable trace. -/
structure SessionOutcome where
  result : SessionResult
  trace : List SessionStatus
  write_calls : ℕ
  review_calls : ℕ
  write_results : List AgentResult
deriving Repr

/-- `Orchestrator.start_session`, parameterised by the behaviour of the four
agents: the writer is a function of the rewrite index and the
`review_feedback` option, the reviewer a function of the rewrite index.
Archivist failure and writer failure are fatal; reviewer failure breaks the
loop; the editor runs unconditionally after the loop and only the draft and
version payloads of its result are read — its success flag is not checked. -/
def start_session (archivist : AgentResult)
    (writer : ℕ → Option String → AgentResult) (reviewer : ℕ → AgentResult)
    (editor : AgentResult) : SessionOutcome :=
  let trace0 := [SessionStatus.briefing]
  let brief_result := archivist
  if brief_result.success = false then
    { result := { success := false, status := .error, error := some "场景简报生成失败" }
      trace := trace0 ++ [SessionStatus.error]
      write_calls := 0, review_calls := 0, write_results := [] }
  else
    let init : LoopState := ⟨0, trace0, 0, 0, [], none, none⟩
    let res := loopIter writer reviewer (List.range (MAX_REWRITE_ITERATIONS + 1)) init
    let s := res.1
    if res.2 then
      { result := { success := false, status := .error, error := some "草稿生成失败" }
        trace := s.trace ++ [SessionStatus.error]
        write_calls := s.write_calls, review_calls := s.review_calls
        write_results := s.write_results }
    else
      let s := { s with trace := s.trace ++ [SessionStatus.editing] }
      let edit_result := editor
      let s := { s with trace := s.trace ++ [SessionStatus.waiting] }
      { result :=
          { success := true
            status := .waiting
            brief := brief_result.brief
            draft := edit_result.draft
            review := match s.review_result with
              | some rr => rr.review
              | none => none
            version := edit_result.version
            quality_score := match s.review_result with
              | some rr => Option.map Review.overall_score rr.review
              | none => none
            rewrite_count := s.rewrite_iteration }
        trace := s.trace
        write_calls := s.write_calls
        review_calls := s.review_calls
        write_results := s.write_results }

/-! ## Lemmas: association-list primitives -/

theorem lookupEntry_isSome_iff {β : Type} (c : List (String × β)) (k : String) :
    (lookupEntry c k).isSome ↔ k ∈ c.map Prod.fst := by
  induction c with
  | nil => simp [lookupEntry]
  | cons kv rest ih =>
      obtain ⟨k', v⟩ := kv
      by_cases h : k' = k
      · subst h; simp [lookupEntry]
      · simp [lookupEntry, h, ih, Ne.symm h]

theorem lookupEntry_eq_none_iff {β : Type} (c : List (String × β)) (k : String) :
    lookupEntry c k = none ↔ k ∉ c.map Prod.fst := by
  rw [← lookupEntry_isSome_iff, Option.isSome_iff_exists]
  cases lookupEntry c k <;> simp

theorem lookupEntry_updateEntry_self {β : Type} (c : List (String × β))
    (k : String) (e : β) : lookupEntry (updateEntry c k e) k = some e := by
  induction c with
  | nil => simp [updateEntry, lookupEntry]
  | cons kv rest ih =>
      obtain ⟨k', v⟩ := kv
      by_cases h : k' = k
      · subst h; simp [updateEntry, lookupEntry]
      · simp [updateEntry, lookupEntry, h, ih]

theorem keys_updateEntry {β : Type} (c : List (String × β)) (k : String) (e : β) :
    (updateEntry c k e).map Prod.fst =
      if k ∈ c.map Prod.fst then c.map Prod.fst else c.map Prod.fst ++ [k] := by
  induction c with
  | nil => simp [updateEntry]
  | cons kv rest ih =>
      obtain ⟨k', v⟩ := kv
      by_cases h : k' = k
      · subst h; simp [updateEntry]
      · by_cases h2 : k ∈ rest.map Prod.fst <;>
          simp [updateEntry, h, ih, h2, Ne.symm h]

theorem keys_removeKey {β : Type} (c : List (String × β)) (k : String) :
    (removeKey c k).map Prod.fst = (c.map Prod.fst).erase k := by
  induction c with
  | nil => simp [removeKey]
  | cons kv rest ih =>
      obtain ⟨k', v⟩ := kv
      by_cases h : k' = k
      · subst h; simp [removeKey, List.erase_cons_head]
      · simp [removeKey, h, ih, List.erase_cons_tail, h]

theorem removeKey_of_not_mem {β : Type} {c : List (String × β)} {k : String}
    (h : k ∉ c.map Prod.fst) : removeKey c k = c := by
  induction c with
  | nil => simp [removeKey]
  | cons kv rest ih =>
      obtain ⟨k', v⟩ := kv
      simp only [List.map_cons, List.mem_cons] at h
      push_neg at h
      simp [removeKey, Ne.symm h.1, ih h.2]

theorem lookupEntry_removeKey_self {β : Type} {c : List (String × β)} {k : String}
    (h : (c.map Prod.fst).Nodup) : lookupEntry (removeKey c k) k = none := by
  rw [lookupEntry_eq_none_iff, keys_removeKey]
  exact h.not_mem_erase

theorem removeFirst_eq_erase (l : List String) (k : String) :
    removeFirst l k = l.erase k := by
  induction l with
  | nil => simp [removeFirst]
  | cons x rest ih =>
      by_cases h : x = k
      · subst h; simp [removeFirst, List.erase_cons_head]
      · simp [removeFirst, h, ih, List.erase_cons_tail, h]

/-! ## Lemmas: LRU cache state transitions -/

theorem LRUCache.WF.mem_iff {α : Type} {c : LRUCache α} (h : c.WF) (k : String) :
    k ∈ c.access_order ↔ k ∈ c.keys :=
  h.2.2.mem_iff

theorem WF_init {α : Type} (N : ℕ) (t : ℚ) : (LRUCache.init α N t).WF := by
  refine ⟨?_, ?_, ?_⟩ <;> simp [LRUCache.init, LRUCache.keys]

theorem update_access_cache {α : Type} (c : LRUCache α) (k : String) :
    (c.update_access k).cache = c.cache := rfl

theorem update_access_maxsize {α : Type} (c : LRUCache α) (k : String) :
    (c.update_access k).maxsize = c.maxsize := rfl

theorem update_access_order {α : Type} (c : LRUCache α) (k : String) :
    (c.update_access k).access_order = c.access_order.erase k ++ [k] := by
  unfold LRUCache.update_access
  by_cases h : k ∈ c.access_order
  · simp [h, removeFirst_eq_erase]
  · simp [h, List.erase_of_not_mem h]

theorem WF_update_access {α : Type} {c : LRUCache α} (h : c.WF) {k : String}
    (hk : k ∈ c.keys) : (c.update_access k).WF := by
  obtain ⟨h1, h2, h3⟩ := h
  refine ⟨?_, ?_, ?_⟩
  · simpa [LRUCache.keys, update_access_cache] using h1
  · rw [update_access_order]
    refine (List.nodup_append.mpr ⟨h2.erase k, List.nodup_singleton k, ?_⟩)
    intro a ha hb
    rcases List.mem_singleton.mp hb with rfl
    exact h2.not_mem_erase ha
  · show (c.update_access k).access_order.Perm (c.update_access k).keys
    have hkeys : (c.update_access k).keys = c.keys := rfl
    rw [update_access_order, hkeys]
    have hk' : k ∈ c.access_order := h3.mem_iff.mpr hk
    exact ((List.perm_append_singleton _ _).trans
      (List.perm_cons_erase hk').symm).trans h3

theorem evict_of_cons {α : Type} {c : LRUCache α} (hWF : c.WF) {oldest : String}
    {rest : List String} (h : c.access_order = oldest :: rest) :
    c.evict = { c with cache := removeKey c.cache oldest, access_order := rest } ∧
      oldest ∈ c.keys := by
  have hmem : oldest ∈ c.keys := by
    refine (hWF.mem_iff oldest).mp ?_
    rw [h]; exact List.mem_cons_self _ _
  have hsome : (lookupEntry c.cache oldest).isSome :=
    (lookupEntry_isSome_iff _ _).mpr hmem
  obtain ⟨m, t, cache, order⟩ := c
  simp only at h
  subst h
  refine ⟨?_, hmem⟩
  simp [LRUCache.evict, hsome]

theorem WF_evict_cons {α : Type} {c : LRUCache α} (hWF : c.WF) {oldest : String}
    {rest : List String} (h : c.access_order = oldest :: rest) : c.evict.WF := by
  obtain ⟨heq, hmem⟩ := evict_of_cons hWF h
  obtain ⟨h1, h2, h3⟩ := hWF
  rw [heq]
  refine ⟨?_, ?_, ?_⟩
  · simpa [LRUCache.keys, keys_removeKey] using h1.erase oldest
  · have h2' : (oldest :: rest).Nodup := h ▸ h2
    exact h2'.of_cons
  · show rest.Perm ((removeKey c.cache oldest).map Prod.fst)
    rw [keys_removeKey]
    have : (oldest :: rest).Perm c.keys := h ▸ h3
    have h4 := this.erase oldest
    rw [List.erase_cons_head] at h4
    exact h4

theorem delete_of_present {α : Type} {c : LRUCache α} {k : String}
    (h : (lookupEntry c.cache k).isSome) :
    (c.delete k).2 =
      { c with cache := removeKey c.cache k,
               access_order := c.access_order.erase k } := by
  unfold LRUCache.delete
  rw [if_pos h]
  by_cases hm : k ∈ c.access_order
  · simp [hm, removeFirst_eq_erase]
  · simp [hm, List.erase_of_not_mem hm]

theorem delete_of_absent {α : Type} {c : LRUCache α} {k : String}
    (h : lookupEntry c.cache k = none) : (c.delete k).2 = c := by
  unfold LRUCache.delete
  rw [if_neg (by simp [h])]

theorem WF_delete {α : Type} {c : LRUCache α} (hWF : c.WF) (k : String) :
    ((c.delete k).2).WF := by
  obtain ⟨h1, h2, h3⟩ := hWF
  cases h : lookupEntry c.cache k with
  | none => rw [delete_of_absent h]; exact ⟨h1, h2, h3⟩
  | some e =>
      rw [delete_of_present (by simp [h])]
      refine ⟨?_, h2.erase k, ?_⟩
      · simpa [LRUCache.keys, keys_removeKey] using h1.erase k
      · show (c.access_order.erase k).Perm ((removeKey c.cache k).map Prod.fst)
        rw [keys_removeKey]
        exact h3.erase k

theorem length_delete_le {α : Type} (c : LRUCache α) (k : String) :
    ((c.delete k).2).cache.length ≤ c.cache.length := by
  cases h : lookupEntry c.cache k with
  | none => rw [delete_of_absent h]
  | some e =>
      rw [delete_of_present (by simp [h])]
      show (removeKey c.cache k).length ≤ _
      have := congrArg List.length (keys_removeKey c.cache k)
      simp only [List.length_map] at this
      rw [this]
      exact (List.length_erase_le _ _).trans (by simp [LRUCache.keys])

theorem maxsize_delete {α : Type} (c : LRUCache α) (k : String) :
    ((c.delete k).2).maxsize = c.maxsize := by
  unfold LRUCache.delete
  split <;> rfl

theorem WF_get {α : Type} {c : LRUCache α} (hWF : c.WF) (k : String) (now : ℚ) :
    ((c.get k now).2).WF := by
  unfold LRUCache.get
  cases h : lookupEntry c.cache k with
  | none => exact hWF
  | some e =>
      by_cases hex : e.is_expired now
      · simp only [hex, if_true]
        exact WF_delete hWF k
      · simp only [hex]
        refine WF_update_access hWF ?_
        exact (lookupEntry_isSome_iff _ _).mp (by simp [h])

theorem length_get_le {α : Type} (c : LRUCache α) (k : String) (now : ℚ) :
    ((c.get k now).2).cache.length ≤ c.cache.length := by
  unfold LRUCache.get
  cases h : lookupEntry c.cache k with
  | none => simp
  | some e =>
      by_cases hex : e.is_expired now
      · simp only [hex, if_true]
        exact length_delete_le c k
      · simp [hex, update_access_cache]

theorem maxsize_get {α : Type} (c : LRUCache α) (k : String) (now : ℚ) :
    ((c.get k now).2).maxsize = c.maxsize := by
  unfold LRUCache.get
  cases lookupEntry c.cache k with
  | none => rfl
  | some e => dsimp only; split
              · exact maxsize_delete c k
              · rfl

theorem maxsize_evict {α : Type} (c : LRUCache α) : c.evict.maxsize = c.maxsize := by
  unfold LRUCache.evict
  rcases c.access_order with _ | ⟨o, rest⟩
  · rfl
  · dsimp only; split <;> rfl

theorem maxsize_set {α : Type} (c : LRUCache α) (k : String) (v : α)
    (ttl : Option ℚ) (now : ℚ) : (c.set k v ttl now).maxsize = c.maxsize := by
  unfold LRUCache.set
  dsimp only
  split
  · exact maxsize_evict c
  · rfl

theorem set_cache_eq {α : Type} (c : LRUCache α) (k : String) (v : α)
    (ttl : Option ℚ) (now : ℚ) :
    (c.set k v ttl now).cache =
      updateEntry
        (if c.cache.length ≥ c.maxsize ∧ (lookupEntry c.cache k).isNone
         then c.evict else c).cache
        k ⟨v, now, ttl.getD c.default_ttl⟩ := rfl

theorem lookupEntry_set_self {α : Type} (c : LRUCache α) (k : String) (v : α)
    (ttl : Option ℚ) (now : ℚ) :
    lookupEntry (c.set k v ttl now).cache k =
      some ⟨v, now, ttl.getD c.default_ttl⟩ := by
  rw [set_cache_eq]
  exact lookupEntry_updateEntry_self _ _ _

theorem set_order_eq {α : Type} (c : LRUCache α) (k : String) (v : α)
    (ttl : Option ℚ) (now : ℚ) :
    (c.set k v ttl now).access_order =
      (if c.cache.length ≥ c.maxsize ∧ (lookupEntry c.cache k).isNone
       then c.evict else c).access_order.erase k ++ [k] := by
  rw [show (c.set k v ttl now).access_order =
    (LRUCache.update_access
      { (if c.cache.length ≥ c.maxsize ∧ (lookupEntry c.cache k).isNone
         then c.evict else c) with
        cache := updateEntry
          (if c.cache.length ≥ c.maxsize ∧ (lookupEntry c.cache k).isNone
           then c.evict else c).cache k ⟨v, now, ttl.getD c.default_ttl⟩ }
      k).access_order from rfl]
  rw [update_access_order]

theorem length_updateEntry {β : Type} (c : List (String × β)) (k : String) (e : β) :
    (updateEntry c k e).length =
      if k ∈ c.map Prod.fst then c.length else c.length + 1 := by
  by_cases hm : k ∈ c.map Prod.fst
  · have h := congrArg List.length (keys_updateEntry c k e)
    rw [if_pos hm, List.length_map, List.length_map] at h
    rw [if_pos hm]
    exact h
  · have h := congrArg List.length (keys_updateEntry c k e)
    rw [if_neg hm, List.length_map, List.length_append, List.length_map] at h
    rw [if_neg hm]
    simpa using h

theorem length_removeKey_of_mem {β : Type} {c : List (String × β)} {k : String}
    (h : k ∈ c.map Prod.fst) : (removeKey c k).length = c.length - 1 := by
  have h2 := congrArg List.length (keys_removeKey c k)
  rw [List.length_map, List.length_erase_of_mem h, List.length_map] at h2
  exact h2

theorem evict_nil {α : Type} {c : LRUCache α} (h : c.access_order = []) :
    c.evict = c := by
  obtain ⟨m, t, cache, order⟩ := c
  simp only at h
  subst h
  rfl

theorem WF_evict {α : Type} {c : LRUCache α} (hWF : c.WF) : c.evict.WF := by
  cases h : c.access_order with
  | nil => rw [evict_nil h]; exact hWF
  | cons o rest => exact WF_evict_cons hWF h

theorem set_eq_store {α : Type} (c : LRUCache α) (k : String) (v : α)
    (ttl : Option ℚ) (now : ℚ) :
    c.set k v ttl now =
      LRUCache.update_access
        { (if c.cache.length ≥ c.maxsize ∧ (lookupEntry c.cache k).isNone
           then c.evict else c) with
          cache := updateEntry
            (if c.cache.length ≥ c.maxsize ∧ (lookupEntry c.cache k).isNone
             then c.evict else c).cache
            k ⟨v, now, ttl.getD c.default_ttl⟩ }
        k := rfl

theorem WF_store {α : Type} {c1 : LRUCache α} (h : c1.WF) (k : String)
    (e : CacheEntry α) :
    (LRUCache.update_access { c1 with cache := updateEntry c1.cache k e } k).WF := by
  obtain ⟨h1, h2, h3⟩ := h
  set c2 : LRUCache α := { c1 with cache := updateEntry c1.cache k e } with hc2
  have hkeys : c2.keys = if k ∈ c1.keys then c1.keys else c1.keys ++ [k] :=
    keys_updateEntry c1.cache k e
  have horder : c2.access_order = c1.access_order := rfl
  have hordfin : (c2.update_access k).access_order =
      c1.access_order.erase k ++ [k] := by
    rw [update_access_order, horder]
  have hkeysfin : (c2.update_access k).keys = c2.keys := rfl
  refine ⟨?_, ?_, ?_⟩
  · rw [hkeysfin, hkeys]
    by_cases hm : k ∈ c1.keys
    · rw [if_pos hm]; exact h1
    · rw [if_neg hm]
      refine List.nodup_append.mpr ⟨h1, List.nodup_singleton k, ?_⟩
      intro a ha hb
      rcases List.mem_singleton.mp hb with rfl
      exact hm ha
  · rw [hordfin]
    refine List.nodup_append.mpr ⟨h2.erase k, List.nodup_singleton k, ?_⟩
    intro a ha hb
    rcases List.mem_singleton.mp hb with rfl
    exact h2.not_mem_erase ha
  · rw [hordfin, hkeysfin, hkeys]
    by_cases hm : k ∈ c1.keys
    · rw [if_pos hm]
      have hk' : k ∈ c1.access_order := h3.mem_iff.mpr hm
      exact ((List.perm_append_singleton _ _).trans
        (List.perm_cons_erase hk').symm).trans h3
    · rw [if_neg hm]
      have hk' : k ∉ c1.access_order := fun hx => hm (h3.mem_iff.mp hx)
      rw [List.erase_of_not_mem hk']
      exact h3.append_right [k]

theorem WF_set {α : Type} {c : LRUCache α} (hWF : c.WF) (k : String) (v : α)
    (ttl : Option ℚ) (now : ℚ) : (c.set k v ttl now).WF := by
  rw [set_eq_store]
  by_cases hP : c.cache.length ≥ c.maxsize ∧ (lookupEntry c.cache k).isNone
  · rw [if_pos hP]
    exact WF_store (WF_evict hWF) k _
  · rw [if_neg hP]
    exact WF_store hWF k _

theorem set_of_present {α : Type} {c : LRUCache α} {k : String}
    (h : (lookupEntry c.cache k).isSome) (v : α) (ttl : Option ℚ) (now : ℚ) :
    (c.set k v ttl now).keys = c.keys ∧
      (c.set k v ttl now).cache.length = c.cache.length := by
  have hP : ¬(c.cache.length ≥ c.maxsize ∧ (lookupEntry c.cache k).isNone) := by
    rintro ⟨-, h2⟩
    rw [Option.isNone_iff_eq_none] at h2
    rw [h2] at h
    simp at h
  have hm : k ∈ c.cache.map Prod.fst := (lookupEntry_isSome_iff _ _).mp h
  constructor
  · show (c.set k v ttl now).cache.map Prod.fst = _
    rw [set_cache_eq, if_neg hP, keys_updateEntry, if_pos hm]
    rfl
  · rw [set_cache_eq, if_neg hP, length_updateEntry, if_pos hm]

theorem length_set_le {α : Type} {c : LRUCache α} (hWF : c.WF)
    (hN : 1 ≤ c.maxsize) (hle : c.cache.length ≤ c.maxsize) (k : String) (v : α)
    (ttl : Option ℚ) (now : ℚ) :
    (c.set k v ttl now).cache.length ≤ c.maxsize := by
  by_cases hP : c.cache.length ≥ c.maxsize ∧ (lookupEntry c.cache k).isNone
  · have hfull : c.cache.length = c.maxsize := le_antisymm hle hP.1
    have hpos : 0 < c.cache.length := by omega
    obtain ⟨kv, hkv⟩ := List.exists_mem_of_length_pos hpos
    have hmemkeys : kv.1 ∈ c.keys := List.mem_map_of_mem _ hkv
    have horder : kv.1 ∈ c.access_order := (hWF.mem_iff _).mpr hmemkeys
    obtain ⟨o, rest, ho⟩ : ∃ o rest, c.access_order = o :: rest := by
      cases hx : c.access_order with
      | nil => rw [hx] at horder; simp at horder
      | cons o rest => exact ⟨o, rest, rfl⟩
    obtain ⟨heq, hmem⟩ := evict_of_cons hWF ho
    have habs : k ∉ c.keys := by
      have := hP.2
      rw [Option.isNone_iff_eq_none] at this
      exact (lookupEntry_eq_none_iff _ _).mp this
    have habs1 : k ∉ c.evict.cache.map Prod.fst := by
      rw [heq]
      show k ∉ (removeKey c.cache o).map Prod.fst
      rw [keys_removeKey]
      intro hk
      exact habs (List.mem_of_mem_erase hk)
    have hlen1 : c.evict.cache.length = c.cache.length - 1 := by
      rw [heq]
      exact length_removeKey_of_mem hmem
    show (c.set k v ttl now).cache.length ≤ _
    rw [set_cache_eq, if_pos hP, length_updateEntry, if_neg habs1, hlen1]
    omega
  · rw [set_cache_eq, if_neg hP, length_updateEntry]
    rw [not_and_or] at hP
    by_cases hm : k ∈ c.cache.map Prod.fst
    · rw [if_pos hm]; exact hle
    · rw [if_neg hm]
      rcases hP with hP | hP
      · omega
      · rw [Option.isNone_iff_eq_none, lookupEntry_eq_none_iff] at hP
        exact absurd (of_not_not hP) hm

theorem runOps_invariant {α : Type} :
    ∀ (ops : List (CacheOp α)) (c : LRUCache α), c.WF → 1 ≤ c.maxsize →
      c.cache.length ≤ c.maxsize →
      (runOps c ops).WF ∧ (runOps c ops).maxsize = c.maxsize ∧
        (runOps c ops).cache.length ≤ c.maxsize := by
  intro ops
  induction ops with
  | nil => intro c h1 h2 h3; exact ⟨h1, rfl, h3⟩
  | cons op rest ih =>
      intro c h1 h2 h3
      cases op with
      | setOp k v t now =>
          have hm := maxsize_set c k v t now
          have := ih (c.set k v t now) (WF_set h1 k v t now)
            (hm ▸ h2) (hm ▸ length_set_le h1 h2 h3 k v t now)
          simpa [runOps, hm] using this
      | getOp k now =>
          have hm := maxsize_get c k now
          have := ih ((c.get k now).2) (WF_get h1 k now)
            (hm ▸ h2) (hm ▸ ((length_get_le c k now).trans h3))
          simpa [runOps, hm] using this
      | delOp k =>
          have hm := maxsize_delete c k
          have := ih ((c.delete k).2) (WF_delete h1 k)
            (hm ▸ h2) (hm ▸ ((length_delete_le c k).trans h3))
          simpa [runOps, hm] using this

theorem removeKey_eq_filter {β : Type} (c : List (String × β)) (k : String)
    (h : (c.map Prod.fst).Nodup) :
    removeKey c k = c.filter (fun kv => decide (kv.1 ≠ k)) := by
  induction c with
  | nil => simp [removeKey]
  | cons kv rest ih =>
      obtain ⟨k', v⟩ := kv
      rw [List.map_cons, List.nodup_cons] at h
      by_cases hk : k' = k
      · subst hk
        have hfil : List.filter (fun kv => !decide (kv.1 = k')) rest = rest := by
          rw [List.filter_eq_self]
          intro kv hkv
          have hm : kv.1 ∈ rest.map Prod.fst := List.mem_map_of_mem _ hkv
          simp only [Bool.not_eq_true', decide_eq_false_iff_not]
          exact fun he => h.1 (he ▸ hm)
        simp [removeKey, List.filter_cons, hfil]
      · simp [removeKey, hk, List.filter_cons, ih h.2]

theorem delete_foldl_cache {α : Type} :
    ∀ (ks : List String) (c : LRUCache α), (c.cache.map Prod.fst).Nodup →
      (ks.foldl (fun acc k => (acc.delete k).2) c).cache
        = c.cache.filter (fun kv => decide (kv.1 ∉ ks)) := by
  intro ks
  induction ks with
  | nil => intro c h; simp
  | cons k ks ih =>
      intro c h
      have hdel : ((c.delete k).2).cache = removeKey c.cache k := by
        cases hl : lookupEntry c.cache k with
        | none =>
            rw [delete_of_absent hl,
              removeKey_of_not_mem ((lookupEntry_eq_none_iff _ _).mp hl)]
        | some e => rw [delete_of_present (by simp [hl])]
      have hnodup : (((c.delete k).2).cache.map Prod.fst).Nodup := by
        rw [hdel, keys_removeKey]
        exact h.erase k
      show (ks.foldl _ ((c.delete k).2)).cache = _
      rw [ih _ hnodup, hdel, removeKey_eq_filter c.cache k h, List.filter_filter]
      apply List.filter_congr
      intro kv _
      simp [List.mem_cons, not_or, Bool.and_comm]

theorem prefix_joinColon (y : String) (rest : List String) :
    y.data <+: (joinColon (y :: rest)).data := by
  cases rest with
  | nil => exact List.prefix_refl _
  | cons z zs =>
      show y.data <+: ((y ++ ":") ++ joinColon (z :: zs)).data
      rw [String.data_append, String.data_append, List.append_assoc]
      exact List.prefix_append _ _

/-! ## Claim theorems: the cache -/

/-- C7: for a nonnegative TTL `T`, an entry set at time `t` is returned by a
`get` performed at the same time; strictly more than `T` seconds later,
`get` treats the entry as absent — it returns `none` and actively deletes
the expired entry from the cache dict. -/
theorem ttl_set_get_expiry {α : Type} (c : LRUCache α) (hWF : c.WF)
    (k : String) (v : α) (T t now : ℚ) (hT : 0 ≤ T) :
    (((c.set k v (some T) t).get k t).1 = some v) ∧
    (now - t > T →
      ((c.set k v (some T) t).get k now).1 = none ∧
      lookupEntry (((c.set k v (some T) t).get k now).2).cache k = none) := by
  have hl : lookupEntry (c.set k v (some T) t).cache k = some ⟨v, t, T⟩ := by
    simpa using lookupEntry_set_self c k v (some T) t
  constructor
  · unfold LRUCache.get
    rw [hl]
    have hexp : CacheEntry.is_expired (⟨v, t, T⟩ : CacheEntry α) t = false := by
      simp only [CacheEntry.is_expired, decide_eq_false_iff_not, not_lt]
      linarith
    simp [hexp]
  · intro hnow
    have hexp : CacheEntry.is_expired (⟨v, t, T⟩ : CacheEntry α) now = true := by
      simp only [CacheEntry.is_expired, decide_eq_true_eq]
      exact hnow
    have hWF' : (c.set k v (some T) t).WF := WF_set hWF k v (some T) t
    unfold LRUCache.get
    rw [hl]
    simp only [hexp, if_true]
    refine ⟨by trivial, ?_⟩
    rw [delete_of_present (by simp [hl])]
    exact lookupEntry_removeKey_self hWF'.1

/-- Witness for C7: a fresh cache, `set` with TTL 5 at time 0, `get` at
times 0 and 6. -/
theorem ttl_set_get_expiry_witness :
    ((((LRUCache.init ℕ 2 300).set "k" 7 (some 5) 0).get "k" 0).1 = some 7) ∧
    ((6 : ℚ) - 0 > 5 →
      ((((LRUCache.init ℕ 2 300).set "k" 7 (some 5) 0).get "k" 6).1 = none) ∧
      lookupEntry ((((LRUCache.init ℕ 2 300).set "k" 7 (some 5) 0).get "k" 6).2).cache
        "k" = none) :=
  ttl_set_get_expiry (LRUCache.init ℕ 2 300) (WF_init 2 300) "k" 7 5 0 6
    (by norm_num)

/-- C8: with the cache at capacity `N ≥ 1` and an incoming new key, `set`
evicts exactly one entry — the least-recently-accessed one at the front of
the access order — and appends the new key at the back; a successful `get`
likewise refreshes the accessed key to the back of the order. -/
theorem lru_eviction {α : Type} (c : LRUCache α) (hWF : c.WF) (N : ℕ)
    (hN : 1 ≤ N) (hmax : c.maxsize = N) (hfull : c.cache.length = N)
    (k : String) (v : α) (ttl : Option ℚ) (now : ℚ)
    (hnew : lookupEntry c.cache k = none) :
    (∃ oldest rest, c.access_order = oldest :: rest ∧
      (c.set k v ttl now).keys = c.keys.erase oldest ++ [k] ∧
      (c.set k v ttl now).cache.length = N ∧
      (c.set k v ttl now).access_order = rest ++ [k]) ∧
    (∀ (k' : String) (e : CacheEntry α) (t' : ℚ),
      lookupEntry c.cache k' = some e → e.is_expired t' = false →
        ((c.get k' t').2).access_order = c.access_order.erase k' ++ [k']) := by
  constructor
  · have hP : c.cache.length ≥ c.maxsize ∧ (lookupEntry c.cache k).isNone := by
      refine ⟨by rw [hfull, hmax], by simp [hnew]⟩
    have hpos : 0 < c.cache.length := by omega
    obtain ⟨kv, hkv⟩ := List.exists_mem_of_length_pos hpos
    have hmemkeys : kv.1 ∈ c.keys := List.mem_map_of_mem _ hkv
    have horder : kv.1 ∈ c.access_order := (hWF.mem_iff _).mpr hmemkeys
    obtain ⟨o, rest, ho⟩ : ∃ o rest, c.access_order = o :: rest := by
      cases hx : c.access_order with
      | nil => rw [hx] at horder; simp at horder
      | cons o rest => exact ⟨o, rest, rfl⟩
    obtain ⟨heq, hmem⟩ := evict_of_cons hWF ho
    have habs : k ∉ c.cache.map Prod.fst := (lookupEntry_eq_none_iff _ _).mp hnew
    have habs1 : k ∉ c.evict.cache.map Prod.fst := by
      rw [heq]
      show k ∉ (removeKey c.cache o).map Prod.fst
      rw [keys_removeKey]
      exact fun hk => habs (List.mem_of_mem_erase hk)
    refine ⟨o, rest, ho, ?_, ?_, ?_⟩
    · show (c.set k v ttl now).cache.map Prod.fst = _
      rw [set_cache_eq, if_pos hP, keys_updateEntry, if_neg habs1, heq]
      show (removeKey c.cache o).map Prod.fst ++ [k] = _
      rw [keys_removeKey]
      rfl
    · rw [set_cache_eq, if_pos hP, length_updateEntry, if_neg habs1, heq]
      show (removeKey c.cache o).length + 1 = N
      rw [length_removeKey_of_mem hmem, hfull]
      omega
    · rw [set_order_eq, if_pos hP, heq]
      show rest.erase k ++ [k] = rest ++ [k]
      have hkrest : k ∉ rest := by
        intro hk
        have hmem2 : k ∈ c.access_order := by
          rw [ho]; exact List.mem_cons_of_mem _ hk
        exact habs ((hWF.mem_iff _).mp hmem2)
      rw [List.erase_of_not_mem hkrest]
  · intro k' e t' hsome hnexp
    unfold LRUCache.get
    rw [hsome]
    simp only [hnexp, Bool.false_eq_true, if_false]
    exact update_access_order c k'

/-- Witness for C8: a two-entry cache at capacity where the front of the
access order is `"b"`; setting `"c"` evicts `"b"`. -/
theorem lru_eviction_witness :
    ∃ oldest rest,
      (LRUCache.mk 2 300 [("a", ⟨1, 0, 300⟩), ("b", ⟨2, 1, 300⟩)]
        ["b", "a"] : LRUCache ℕ).access_order = oldest :: rest ∧
      ((LRUCache.mk 2 300 [("a", ⟨1, 0, 300⟩), ("b", ⟨2, 1, 300⟩)]
        ["b", "a"] : LRUCache ℕ).set "c" 9 none 5).keys =
        (LRUCache.mk 2 300 [("a", ⟨1, 0, 300⟩), ("b", ⟨2, 1, 300⟩)]
          ["b", "a"] : LRUCache ℕ).keys.erase oldest ++ ["c"] ∧
      ((LRUCache.mk 2 300 [("a", ⟨1, 0, 300⟩), ("b", ⟨2, 1, 300⟩)]
        ["b", "a"] : LRUCache ℕ).set "c" 9 none 5).cache.length = 2 ∧
      ((LRUCache.mk 2 300 [("a", ⟨1, 0, 300⟩), ("b", ⟨2, 1, 300⟩)]
        ["b", "a"] : LRUCache ℕ).set "c" 9 none 5).access_order = rest ++ ["c"] :=
  (lru_eviction
    (LRUCache.mk 2 300 [("a", ⟨1, 0, 300⟩), ("b", ⟨2, 1, 300⟩)] ["b", "a"])
    (by refine ⟨?_, ?_, ?_⟩ <;> decide) 2 (by norm_num) rfl rfl
    "c" 9 none 5 rfl).1

/-- C9: starting from a fresh cache with `maxsize = N ≥ 1`, every sequence of
set/get/delete operations leaves at most `N` stored entries; and a `set` on
an already-present key (in particular while at capacity) overwrites that
entry in place, evicting nothing. -/
theorem lru_capacity_invariant {α : Type} (N : ℕ) (hN : 1 ≤ N) (ttl0 : ℚ)
    (ops : List (CacheOp α)) :
    (runOps (LRUCache.init α N ttl0) ops).cache.length ≤ N ∧
    (∀ (c : LRUCache α) (k : String) (v : α) (ttl : Option ℚ) (now : ℚ),
      c.WF → c.cache.length = c.maxsize → (lookupEntry c.cache k).isSome →
        (c.set k v ttl now).keys = c.keys ∧
        (c.set k v ttl now).cache.length = c.cache.length) := by
  constructor
  · exact (runOps_invariant ops (LRUCache.init α N ttl0) (WF_init N ttl0) hN
      (by simp [LRUCache.init])).2.2
  · intro c k v ttl now _ _ h
    exact set_of_present h v ttl now

/-- Witness for C9: four operations on a fresh capacity-2 cache leave at most
2 entries. -/
theorem lru_capacity_invariant_witness :
    (runOps (LRUCache.init ℕ 2 300)
      [CacheOp.setOp "a" 1 none 0, CacheOp.setOp "b" 2 none 1,
       CacheOp.setOp "c" 3 none 2, CacheOp.getOp "a" 3]).cache.length ≤ 2 :=
  (lru_capacity_invariant 2 (by norm_num) 300
    [CacheOp.setOp "a" 1 none 0, CacheOp.setOp "b" 2 none 1,
     CacheOp.setOp "c" 3 none 2, CacheOp.getOp "a" 3]).1

/-- C10: `invalidate_category(category, project)` deletes exactly the entries
whose key starts with `category:project` and leaves every other entry
unchanged; because keys are colon-joined with no terminator after the
project id, the key of any project id that extends the given one as a string
prefix also matches. -/
theorem invalidate_category_exact {α : Type} (c : LRUCache α) (hWF : c.WF)
    (category project_id : String) :
    ((StorageCache.invalidate_category c category project_id).2).cache
      = c.cache.filter
          (fun kv => !(pyStartsWith kv.1 (category ++ ":" ++ project_id))) ∧
    (∀ (cat p p' : String) (args : List String), p.data <+: p'.data →
      pyStartsWith (StorageCache.make_key cat p' args) (cat ++ ":" ++ p) = true) := by
  constructor
  · show ((((c.cache.map Prod.fst).filter
        (fun k => pyStartsWith k (category ++ ":" ++ project_id))).foldl
          (fun acc k => (acc.delete k).2) c).cache) = _
    rw [delete_foldl_cache _ c hWF.1]
    apply List.filter_congr
    intro kv hkv
    have hmem : kv.1 ∈ c.cache.map Prod.fst := List.mem_map_of_mem _ hkv
    by_cases hs : pyStartsWith kv.1 (category ++ ":" ++ project_id) = true
    · simp [List.mem_filter, hmem, hs]
    · simp [List.mem_filter, hmem, hs]
  · intro cat p p' args hpre
    show ((cat ++ ":" ++ p).data.isPrefixOf
      (StorageCache.make_key cat p' args).data) = true
    rw [List.isPrefixOf_iff_prefix]
    show (cat ++ ":" ++ p).data <+:
      (joinColon (cat :: p' :: args.filter (fun a => decide (a ≠ "")))).data
    have h1 : (joinColon (cat :: p' :: args.filter (fun a => decide (a ≠ "")))) =
        cat ++ ":" ++ joinColon (p' :: args.filter (fun a => decide (a ≠ ""))) := rfl
    rw [h1, String.data_append, String.data_append, String.data_append,
      String.data_append]
    have h2 : p.data <+:
        (joinColon (p' :: args.filter (fun a => decide (a ≠ "")))).data :=
      hpre.trans (prefix_joinColon p' _)
    obtain ⟨tail, htail⟩ := h2
    exact ⟨tail, by rw [← htail, List.append_assoc, List.append_assoc]⟩

/-- Witness for C10: invalidating `draft:p1` removes the entry of project
`p10` (whose id extends `p1`) and keeps the entry of project `p2`. -/
theorem invalidate_category_exact_witness :
    ((StorageCache.invalidate_category
        (LRUCache.mk 5 300 [("draft:p10", ⟨1, 0, 60⟩), ("draft:p2", ⟨2, 0, 60⟩)]
          ["draft:p10", "draft:p2"] : LRUCache ℕ) "draft" "p1").2).cache
      = (LRUCache.mk 5 300 [("draft:p10", ⟨1, 0, 60⟩), ("draft:p2", ⟨2, 0, 60⟩)]
          ["draft:p10", "draft:p2"] : LRUCache ℕ).cache.filter
          (fun kv => !(pyStartsWith kv.1 ("draft" ++ ":" ++ "p1"))) ∧
    pyStartsWith (StorageCache.make_key "draft" "p10" []) ("draft" ++ ":" ++ "p1")
      = true :=
  ⟨(invalidate_category_exact
      (LRUCache.mk 5 300 [("draft:p10", ⟨1, 0, 60⟩), ("draft:p2", ⟨2, 0, 60⟩)]
        ["draft:p10", "draft:p2"])
      (by refine ⟨?_, ?_, ?_⟩ <;> decide) "draft" "p1").1,
   (invalidate_category_exact
      (LRUCache.mk 5 300 [("draft:p10", ⟨1, 0, 60⟩), ("draft:p2", ⟨2, 0, 60⟩)]
        ["draft:p10", "draft:p2"])
      (by refine ⟨?_, ?_, ?_⟩ <;> decide) "draft" "p1").2
     "draft" "p1" "p10" [] (by decide)⟩

/-! ## Lemmas: budget allocation -/

theorem admitGreedy_spec {α : Type} (cost : α → ℕ) (budget : ℤ) :
    ∀ (items : List α) (counter : ℕ), (counter : ℤ) ≤ budget →
      ((admitGreedy cost budget items counter).2 : ℤ) ≤ budget ∧
      (admitGreedy cost budget items counter).2
        = counter + ((admitGreedy cost budget items counter).1.map cost).sum ∧
      (admitGreedy cost budget items counter).1 <+: items := by
  intro items
  induction items with
  | nil =>
      intro counter h
      exact ⟨h, by simp [admitGreedy], by simp [admitGreedy]⟩
  | cons x xs ih =>
      intro counter h
      by_cases hx : (counter + cost x : ℤ) ≤ budget
      · have hx' : ((counter + cost x : ℕ) : ℤ) ≤ budget := by push_cast; push_cast at hx; omega
        have hrec := ih (counter + cost x) hx'
        refine ⟨?_, ?_, ?_⟩
        · simpa [admitGreedy, hx] using hrec.1
        · simp only [admitGreedy, if_pos hx]
          rw [hrec.2.1]
          simp [List.sum_cons]
          omega
        · simp only [admitGreedy, if_pos hx]
          exact List.cons_prefix_cons.mpr ⟨rfl, hrec.2.2⟩
      · exact ⟨by simpa [admitGreedy, hx] using h,
          by simp [admitGreedy, hx],
          by simp [admitGreedy, hx]⟩

theorem foldl_allocStep_inv (context : WritingContext) (cB canB sB : ℤ)
    (prio : List String) :
    ∀ st : AllocState,
      ((st.cardsTok : ℤ) ≤ cB ∧ (st.canonTok : ℤ) ≤ canB ∧
        (st.summariesTok : ℤ) ≤ sB ∧
        st.cardsTok =
          (st.allocated.characters.map
            (fun c => estimate_tokens (serialize_character c))).sum +
          (st.allocated.world.map
            (fun w => estimate_tokens (serialize_world w))).sum ∧
        st.canonTok =
          (st.allocated.facts.map (fun f => estimate_tokens f.statement)).sum ∧
        st.summariesTok =
          (st.allocated.summaries.map (fun s => estimate_tokens s.summary)).sum) →
      (((prio.foldl (allocStep context cB canB sB) st).cardsTok : ℤ) ≤ cB ∧
        (((prio.foldl (allocStep context cB canB sB) st).canonTok : ℤ)) ≤ canB ∧
        (((prio.foldl (allocStep context cB canB sB) st).summariesTok : ℤ)) ≤ sB ∧
        (prio.foldl (allocStep context cB canB sB) st).cardsTok =
          ((prio.foldl (allocStep context cB canB sB) st).allocated.characters.map
            (fun c => estimate_tokens (serialize_character c))).sum +
          ((prio.foldl (allocStep context cB canB sB) st).allocated.world.map
            (fun w => estimate_tokens (serialize_world w))).sum ∧
        (prio.foldl (allocStep context cB canB sB) st).canonTok =
          ((prio.foldl (allocStep context cB canB sB) st).allocated.facts.map
            (fun f => estimate_tokens f.statement)).sum ∧
        (prio.foldl (allocStep context cB canB sB) st).summariesTok =
          ((prio.foldl (allocStep context cB canB sB) st).allocated.summaries.map
            (fun s => estimate_tokens s.summary)).sum) := by
  induction prio with
  | nil => intro st h; simpa using h
  | cons cat rest ih =>
      intro st h
      obtain ⟨h1, h2, h3, h4, h5, h6⟩ := h
      rw [List.foldl_cons]
      apply ih
      unfold allocStep
      by_cases hc : cat = "characters"
      · rw [if_pos hc]
        dsimp only
        have hs := admitGreedy_spec
          (fun c => estimate_tokens (serialize_character c)) cB
          context.characters st.cardsTok (h4 ▸ h1)
        refine ⟨hs.1, h2, h3, ?_, h5, h6⟩
        rw [hs.2.1, h4]
        simp [List.map_append]
        omega
      · rw [if_neg hc]
        by_cases hw : cat = "world"
        · rw [if_pos hw]
          dsimp only
          have hs := admitGreedy_spec
            (fun w => estimate_tokens (serialize_world w)) cB
            context.world st.cardsTok (h4 ▸ h1)
          refine ⟨hs.1, h2, h3, ?_, h5, h6⟩
          rw [hs.2.1, h4]
          simp [List.map_append]
          omega
        · rw [if_neg hw]
          by_cases hst : cat = "style"
          · rw [if_pos hst]; exact ⟨h1, h2, h3, h4, h5, h6⟩
          · rw [if_neg hst]
            by_cases hr : cat = "rules"
            · rw [if_pos hr]; exact ⟨h1, h2, h3, h4, h5, h6⟩
            · rw [if_neg hr]
              by_cases hf : cat = "facts"
              · rw [if_pos hf]
                dsimp only
                have hs := admitGreedy_spec
                  (fun f => estimate_tokens f.statement) canB
                  context.facts st.canonTok (h5 ▸ h2)
                refine ⟨h1, hs.1, h3, h4, ?_, h6⟩
                rw [hs.2.1, h5]
                simp [List.map_append]
              · rw [if_neg hf]
                by_cases hsu : cat = "summaries"
                · rw [if_pos hsu]
                  dsimp only
                  have hs := admitGreedy_spec
                    (fun s => estimate_tokens s.summary) sB
                    context.summaries st.summariesTok (h6 ▸ h3)
                  refine ⟨h1, h2, hs.1, h4, h5, ?_⟩
                  rw [hs.2.1, h6]
                  simp [List.map_append]
                · rw [if_neg hsu]
                  exact ⟨h1, h2, h3, h4, h5, h6⟩

/-- C3: for every budget configuration whose cards/canon/summaries budgets
are nonnegative, every candidate context and every priority list, the sum of
estimated tokens admitted into each budget group (cards shared by characters
and world, canon, summaries) never exceeds that group's absolute budget
`floor(total_tokens * fraction)`; with the default priority order each
admitted list is additionally a prefix of its candidate list — candidates
admitted in their given order, the whole category stopping at the first
overflowing candidate — and style and rules pass through unchanged. -/
theorem allocate_context_budget (cfg : BudgetConfig)
    (h1 : 0 ≤ get_budget cfg "cards") (h2 : 0 ≤ get_budget cfg "canon")
    (h3 : 0 ≤ get_budget cfg "summaries") (context : WritingContext)
    (priorities : Option (List String)) :
    ((((allocate_context cfg context priorities).characters.map
        (fun c => estimate_tokens (serialize_character c))).sum +
      ((allocate_context cfg context priorities).world.map
        (fun w => estimate_tokens (serialize_world w))).sum : ℕ) : ℤ)
        ≤ get_budget cfg "cards" ∧
    ((((allocate_context cfg context priorities).facts.map
        (fun f => estimate_tokens f.statement)).sum : ℕ) : ℤ)
        ≤ get_budget cfg "canon" ∧
    ((((allocate_context cfg context priorities).summaries.map
        (fun s => estimate_tokens s.summary)).sum : ℕ) : ℤ)
        ≤ get_budget cfg "summaries" ∧
    (priorities = none →
      (allocate_context cfg context priorities).characters <+: context.characters ∧
      (allocate_context cfg context priorities).world <+: context.world ∧
      (allocate_context cfg context priorities).facts <+: context.facts ∧
      (allocate_context cfg context priorities).summaries <+: context.summaries ∧
      (allocate_context cfg context priorities).style = context.style ∧
      (allocate_context cfg context priorities).rules = context.rules) := by
  have e1 : allocate_context cfg context priorities =
      ((priorities.getD defaultPriorities).foldl
        (allocStep context (get_budget cfg "cards") (get_budget cfg "canon")
          (get_budget cfg "summaries"))
        ⟨⟨[], [], context.style, context.rules, [], []⟩, 0, 0, 0⟩).allocated := rfl
  have hinv := foldl_allocStep_inv context (get_budget cfg "cards")
    (get_budget cfg "canon") (get_budget cfg "summaries")
    (priorities.getD defaultPriorities)
    ⟨⟨[], [], context.style, context.rules, [], []⟩, 0, 0, 0⟩
    ⟨by simpa using h1, by simpa using h2, by simpa using h3,
      by simp, by simp, by simp⟩
  obtain ⟨g1, g2, g3, g4, g5, g6⟩ := hinv
  refine ⟨?_, ?_, ?_, ?_⟩
  · rw [e1]; rw [g4] at g1; exact_mod_cast g1
  · rw [e1]; rw [g5] at g2; exact_mod_cast g2
  · rw [e1]; rw [g6] at g3; exact_mod_cast g3
  · intro hp
    subst hp
    have hC := admitGreedy_spec (fun c => estimate_tokens (serialize_character c))
      (get_budget cfg "cards") context.characters 0 (by simpa using h1)
    have hW := admitGreedy_spec (fun w => estimate_tokens (serialize_world w))
      (get_budget cfg "cards") context.world
      (admitGreedy (fun c => estimate_tokens (serialize_character c))
        (get_budget cfg "cards") context.characters 0).2 hC.1
    have hF := admitGreedy_spec (fun f => estimate_tokens f.statement)
      (get_budget cfg "canon") context.facts 0 (by simpa using h2)
    have hS := admitGreedy_spec (fun s => estimate_tokens s.summary)
      (get_budget cfg "summaries") context.summaries 0 (by simpa using h3)
    have hred : allocate_context cfg context none =
        ⟨(admitGreedy (fun c => estimate_tokens (serialize_character c))
            (get_budget cfg "cards") context.characters 0).1,
         (admitGreedy (fun w => estimate_tokens (serialize_world w))
            (get_budget cfg "cards") context.world
            (admitGreedy (fun c => estimate_tokens (serialize_character c))
              (get_budget cfg "cards") context.characters 0).2).1,
         context.style, context.rules,
         (admitGreedy (fun f => estimate_tokens f.statement)
            (get_budget cfg "canon") context.facts 0).1,
         (admitGreedy (fun s => estimate_tokens s.summary)
            (get_budget cfg "summaries") context.summaries 0).1⟩ := rfl
    rw [hred]
    exact ⟨hC.2.2, hW.2.2, hF.2.2, hS.2.2, rfl, rfl⟩

/-- Witness for C3 at the default configuration, a one-card-per-category
context and the default priority order. -/
theorem allocate_context_budget_witness :
    ((((allocate_context {} ⟨[⟨"A", "hero", [], ""⟩], [⟨"W", "location", "d"⟩], none, none, [⟨"f", "normal"⟩], [⟨"ch01", "s"⟩]⟩ none).characters.map
        (fun c => estimate_tokens (serialize_character c))).sum +
      ((allocate_context {} ⟨[⟨"A", "hero", [], ""⟩], [⟨"W", "location", "d"⟩], none, none, [⟨"f", "normal"⟩], [⟨"ch01", "s"⟩]⟩ none).world.map
        (fun w => estimate_tokens (serialize_world w))).sum : ℕ) : ℤ)
        ≤ get_budget {} "cards" ∧
    ((((allocate_context {} ⟨[⟨"A", "hero", [], ""⟩], [⟨"W", "location", "d"⟩], none, none, [⟨"f", "normal"⟩], [⟨"ch01", "s"⟩]⟩ none).facts.map
        (fun f => estimate_tokens f.statement)).sum : ℕ) : ℤ)
        ≤ get_budget {} "canon" ∧
    ((((allocate_context {} ⟨[⟨"A", "hero", [], ""⟩], [⟨"W", "location", "d"⟩], none, none, [⟨"f", "normal"⟩], [⟨"ch01", "s"⟩]⟩ none).summaries.map
        (fun s => estimate_tokens s.summary)).sum : ℕ) : ℤ)
        ≤ get_budget {} "summaries" ∧
    ((none : Option (List String)) = none →
      (allocate_context {} ⟨[⟨"A", "hero", [], ""⟩], [⟨"W", "location", "d"⟩], none, none, [⟨"f", "normal"⟩], [⟨"ch01", "s"⟩]⟩ none).characters <+: [⟨"A", "hero", [], ""⟩] ∧
      (allocate_context {} ⟨[⟨"A", "hero", [], ""⟩], [⟨"W", "location", "d"⟩], none, none, [⟨"f", "normal"⟩], [⟨"ch01", "s"⟩]⟩ none).world <+: [⟨"W", "location", "d"⟩] ∧
      (allocate_context {} ⟨[⟨"A", "hero", [], ""⟩], [⟨"W", "location", "d"⟩], none, none, [⟨"f", "normal"⟩], [⟨"ch01", "s"⟩]⟩ none).facts <+: [⟨"f", "normal"⟩] ∧
      (allocate_context {} ⟨[⟨"A", "hero", [], ""⟩], [⟨"W", "location", "d"⟩], none, none, [⟨"f", "normal"⟩], [⟨"ch01", "s"⟩]⟩ none).summaries <+: [⟨"ch01", "s"⟩] ∧
      (allocate_context {} ⟨[⟨"A", "hero", [], ""⟩], [⟨"W", "location", "d"⟩], none, none, [⟨"f", "normal"⟩], [⟨"ch01", "s"⟩]⟩ none).style = none ∧
      (allocate_context {} ⟨[⟨"A", "hero", [], ""⟩], [⟨"W", "location", "d"⟩], none, none, [⟨"f", "normal"⟩], [⟨"ch01", "s"⟩]⟩ none).rules = none) :=
  allocate_context_budget {}
    (by norm_num [get_budget]; rw [if_neg (by decide)]; norm_num)
    (by norm_num [get_budget]; rw [if_neg (by decide), if_neg (by decide)]; norm_num)
    (by norm_num [get_budget];
        rw [if_neg (by decide), if_neg (by decide), if_neg (by decide)]; norm_num)
    ⟨[⟨"A", "hero", [], ""⟩], [⟨"W", "location", "d"⟩],
      none, none, [⟨"f", "normal"⟩], [⟨"ch01", "s"⟩]⟩ none

/-! ## Lemmas: stable descending sort -/

theorem mem_insertDesc {α : Type} (x a : ScoredItem α) :
    ∀ l : List (ScoredItem α), a ∈ insertDesc x l ↔ a = x ∨ a ∈ l := by
  intro l
  induction l with
  | nil => simp [insertDesc]
  | cons y ys ih =>
      by_cases h : x.score < y.score
      · simp only [insertDesc, if_pos h, List.mem_cons, ih]
        tauto
      · simp only [insertDesc, if_neg h, List.mem_cons]

theorem insertDesc_sorted {α : Type} (x : ScoredItem α) :
    ∀ l : List (ScoredItem α),
      l.Pairwise (fun a b => b.score ≤ a.score) →
      (insertDesc x l).Pairwise (fun a b => b.score ≤ a.score) := by
  intro l
  induction l with
  | nil => intro _; simp [insertDesc]
  | cons y ys ih =>
      intro h
      rw [List.pairwise_cons] at h
      by_cases hlt : x.score < y.score
      · rw [insertDesc, if_pos hlt, List.pairwise_cons]
        refine ⟨?_, ih h.2⟩
        intro a ha
        rcases (mem_insertDesc x a ys).mp ha with rfl | ha
        · exact le_of_lt hlt
        · exact h.1 a ha
      · rw [insertDesc, if_neg hlt, List.pairwise_cons]
        refine ⟨?_, List.pairwise_cons.mpr h⟩
        intro a ha
        rcases List.mem_cons.mp ha with rfl | ha
        · exact le_of_not_lt hlt
        · exact (h.1 a ha).trans (le_of_not_lt hlt)

theorem sortDesc_sorted {α : Type} (l : List (ScoredItem α)) :
    (sortDesc l).Pairwise (fun a b => b.score ≤ a.score) := by
  induction l with
  | nil => simp [sortDesc]
  | cons x xs ih => exact insertDesc_sorted x _ ih

theorem filter_insertDesc {α : Type} (s : ℝ) (x : ScoredItem α) :
    ∀ l : List (ScoredItem α),
      (insertDesc x l).filter (fun y => decide (y.score = s)) =
        if x.score = s then x :: l.filter (fun y => decide (y.score = s))
        else l.filter (fun y => decide (y.score = s)) := by
  intro l
  induction l with
  | nil =>
      by_cases hx : x.score = s <;> simp [insertDesc, List.filter_cons, hx]
  | cons y ys ih =>
      by_cases hlt : x.score < y.score
      · rw [insertDesc, if_pos hlt]
        by_cases hx : x.score = s
        · have hy : ¬(y.score = s) := by
            intro hy
            rw [hx] at hlt
            rw [hy] at hlt
            exact lt_irrefl s hlt
          rw [if_pos hx]
          simp only [List.filter_cons, hy, decide_eq_true_eq, if_neg hy]
          rw [ih, if_pos hx]
          simp [List.filter_cons, hy]
        · rw [if_neg hx]
          simp only [List.filter_cons]
          rw [ih, if_neg hx]
      · rw [insertDesc, if_neg hlt]
        by_cases hx : x.score = s
        · rw [if_pos hx]
          simp [List.filter_cons, hx]
        · rw [if_neg hx]
          simp [List.filter_cons, hx]

theorem filter_sortDesc {α : Type} (s : ℝ) (l : List (ScoredItem α)) :
    (sortDesc l).filter (fun y => decide (y.score = s)) =
      l.filter (fun y => decide (y.score = s)) := by
  induction l with
  | nil => simp [sortDesc]
  | cons x xs ih =>
      rw [sortDesc, filter_insertDesc, List.filter_cons]
      by_cases hx : x.score = s
      · rw [if_pos hx, ih]
        simp [hx]
      · rw [if_neg hx, ih]
        simp [hx]

theorem zip_self_map {α β γ : Type} (f : α → β) (g : α × β → γ) :
    ∀ l : List α, (l.zip (l.map f)).map g = l.map (fun a => g (a, f a)) := by
  intro l
  induction l with
  | nil => simp
  | cons a l ih => simp [ih]

theorem scoredList_eq_map {α : Type} (query : String)
    (documents : List (α × String)) :
    scoredList query documents = documents.map (fun d =>
      ⟨d.1,
        cosine_similarity
          (compute_tfidf (tokenize query)
            (idfValue (tokenize query :: documents.map (fun d' => tokenize d'.2))))
          (compute_tfidf (tokenize d.2)
            (idfValue (tokenize query :: documents.map (fun d' => tokenize d'.2)))),
        d.2⟩) := by
  unfold scoredList
  rw [zip_self_map]

/-! ## Lemmas: tokenization and TF-IDF vectors -/

theorem dedupFirst_mem :
    ∀ (l : List String) (w : String), w ∈ dedupFirst l ↔ w ∈ l := by
  have H : ∀ (n : ℕ) (l : List String), l.length ≤ n →
      ∀ w, (w ∈ dedupFirst l ↔ w ∈ l) := by
    intro n
    induction n with
    | zero =>
        intro l hl w
        rw [Nat.le_zero, List.length_eq_zero] at hl
        subst hl
        simp [dedupFirst]
    | succ n ih =>
        intro l hl w
        cases l with
        | nil => simp [dedupFirst]
        | cons x xs =>
            rw [dedupFirst]
            have hlen : (xs.filter (fun y => decide (y ≠ x))).length ≤ n := by
              have := List.length_filter_le (fun y => decide (y ≠ x)) xs
              simp only [List.length_cons, Nat.succ_le_succ_iff] at hl
              omega
            rw [List.mem_cons, ih _ hlen w, List.mem_filter, List.mem_cons]
            by_cases hw : w = x
            · simp [hw]
            · simp [hw]
  exact fun l w => H l.length l (le_refl _) w

theorem dedupFirst_nodup : ∀ l : List String, (dedupFirst l).Nodup := by
  have H : ∀ (n : ℕ) (l : List String), l.length ≤ n → (dedupFirst l).Nodup := by
    intro n
    induction n with
    | zero =>
        intro l hl
        rw [Nat.le_zero, List.length_eq_zero] at hl
        subst hl
        simp [dedupFirst]
    | succ n ih =>
        intro l hl
        cases l with
        | nil => simp [dedupFirst]
        | cons x xs =>
            rw [dedupFirst, List.nodup_cons]
            have hlen : (xs.filter (fun y => decide (y ≠ x))).length ≤ n := by
              have := List.length_filter_le (fun y => decide (y ≠ x)) xs
              simp only [List.length_cons, Nat.succ_le_succ_iff] at hl
              omega
            refine ⟨?_, ih _ hlen⟩
            intro hx
            have hx2 := (dedupFirst_mem _ x).mp hx
            rw [List.mem_filter] at hx2
            simp at hx2
  exact fun l => H l.length l (le_refl _)

/-! ## Claim theorems: the relevance ranker -/

/-- C4: with an empty query or an empty document list, `rank_by_similarity`
returns the first `top_k` documents unchanged in order, each with score 0;
otherwise it returns at most `top_k` items — the stable descending sort (by
cosine TF-IDF score) of the candidates scored in their original order — so
scores are descending and tied scores keep the documents' original relative
order (filtering the sorted and the unsorted scored lists to any fixed score
gives the same sequence). -/
theorem rank_by_similarity_spec {α : Type} (query : String)
    (documents : List (α × String)) (top_k : ℕ) :
    ((query = "" ∨ documents = []) →
      rank_by_similarity query documents top_k =
        (documents.take top_k).map (fun d => ⟨d.1, 0, d.2⟩)) ∧
    (query ≠ "" → documents ≠ [] →
      rank_by_similarity query documents top_k =
        (sortDesc (scoredList query documents)).take top_k ∧
      (rank_by_similarity query documents top_k).length ≤ top_k ∧
      (rank_by_similarity query documents top_k).Pairwise
        (fun a b => b.score ≤ a.score) ∧
      (∀ s : ℝ,
        (sortDesc (scoredList query documents)).filter
          (fun y => decide (y.score = s)) =
        (scoredList query documents).filter (fun y => decide (y.score = s))) ∧
      (scoredList query documents).map ScoredItem.item = documents.map Prod.fst ∧
      (scoredList query documents).map ScoredItem.text = documents.map Prod.snd) := by
  constructor
  · intro h
    rcases h with h | h
    · subst h; simp [rank_by_similarity]
    · subst h; simp [rank_by_similarity]
  · intro h1 h2
    have hrank : rank_by_similarity query documents top_k =
        (sortDesc (scoredList query documents)).take top_k := by
      unfold rank_by_similarity
      rw [if_neg]
      intro hc
      rw [Bool.or_eq_true] at hc
      rcases hc with hc | hc
      · exact h1 (of_decide_eq_true hc)
      · exact h2 (List.isEmpty_iff.mp hc)
    refine ⟨hrank, ?_, ?_, fun s => filter_sortDesc s _, ?_, ?_⟩
    · rw [hrank]
      exact (sortDesc (scoredList query documents)).length_take_le top_k
    · rw [hrank]
      exact (sortDesc_sorted _).sublist (List.take_sublist _ _)
    · rw [scoredList_eq_map]
      simp
    · rw [scoredList_eq_map]
      simp

/-- Witness for C4: the empty-query case on a one-document list, and the
non-empty case at query `"ab"`, one document, `top_k = 3`. -/
theorem rank_by_similarity_spec_witness :
    (rank_by_similarity "" [((0 : ℕ), "t")] 1 =
      (([((0 : ℕ), "t")].take 1).map (fun d => ⟨d.1, 0, d.2⟩))) ∧
    (rank_by_similarity "ab" [((0 : ℕ), "cd")] 3 =
        (sortDesc (scoredList "ab" [((0 : ℕ), "cd")])).take 3 ∧
      (rank_by_similarity "ab" [((0 : ℕ), "cd")] 3).length ≤ 3 ∧
      (rank_by_similarity "ab" [((0 : ℕ), "cd")] 3).Pairwise
        (fun a b => b.score ≤ a.score) ∧
      (∀ s : ℝ,
        (sortDesc (scoredList "ab" [((0 : ℕ), "cd")])).filter
          (fun y => decide (y.score = s)) =
        (scoredList "ab" [((0 : ℕ), "cd")]).filter
          (fun y => decide (y.score = s))) ∧
      (scoredList "ab" [((0 : ℕ), "cd")]).map ScoredItem.item =
        [((0 : ℕ), "cd")].map Prod.fst ∧
      (scoredList "ab" [((0 : ℕ), "cd")]).map ScoredItem.text =
        [((0 : ℕ), "cd")].map Prod.snd) :=
  ⟨(rank_by_similarity_spec "" [((0 : ℕ), "t")] 1).1 (Or.inl rfl),
   (rank_by_similarity_spec "ab" [((0 : ℕ), "cd")] 3).2 (by decide) (by simp)⟩

/-! ## Lemmas: cosine similarity of a vector with itself -/

theorem vecGet_keys_map :
    ∀ v : List (String × ℝ), (v.map Prod.fst).Nodup →
      (v.map Prod.fst).map (fun k => vecGet v k * vecGet v k) =
        v.map (fun p => p.2 * p.2) := by
  intro v
  induction v with
  | nil => intro _; simp
  | cons p rest ih =>
      intro h
      obtain ⟨k0, x0⟩ := p
      rw [List.map_cons, List.nodup_cons] at h
      rw [List.map_cons, List.map_cons, List.map_cons]
      congr 1
      · simp [vecGet, lookupEntry]
      · have hstep : (rest.map Prod.fst).map
            (fun k => vecGet ((k0, x0) :: rest) k * vecGet ((k0, x0) :: rest) k) =
            (rest.map Prod.fst).map (fun k => vecGet rest k * vecGet rest k) := by
          apply List.map_congr_left
          intro k hk
          have hne : k0 ≠ k := fun he => h.1 (he ▸ hk)
          simp [vecGet, lookupEntry, hne]
        rw [hstep, ih h.2]

theorem cosine_self (v : List (String × ℝ)) (hne : v ≠ [])
    (hnodup : (v.map Prod.fst).Nodup) (hpos : ∀ p ∈ v, 0 < p.2) :
    cosine_similarity v v = 1 := by
  have hie : v.isEmpty = false := by
    cases v with
    | nil => exact absurd rfl hne
    | cons p rest => rfl
  have hSpos : 0 < (v.map (fun p => p.2 ^ 2)).sum := by
    obtain ⟨p, rest, rfl⟩ := List.exists_cons_of_ne_nil hne
    have hmem : p.2 ^ 2 ∈ ((p :: rest).map (fun q => q.2 ^ 2)) := by simp
    have hnn : ∀ x ∈ ((p :: rest).map (fun q => q.2 ^ 2)), (0:ℝ) ≤ x := by
      intro x hx
      obtain ⟨q, _, rfl⟩ := List.mem_map.mp hx
      exact sq_nonneg _
    have hle := List.single_le_sum hnn _ hmem
    have hp2 : 0 < p.2 ^ 2 := pow_pos (hpos p (List.mem_cons_self _ _)) 2
    linarith
  have hperm : ((v.map Prod.fst ++ v.map Prod.fst).dedup).Perm (v.map Prod.fst) := by
    refine (List.perm_ext_iff_of_nodup (List.nodup_dedup _) hnodup).mpr ?_
    intro a
    rw [List.mem_dedup, List.mem_append]
    tauto
  have hdot : (((v.map Prod.fst ++ v.map Prod.fst).dedup).map
      (fun k => vecGet v k * vecGet v k)).sum = (v.map (fun p => p.2 ^ 2)).sum := by
    rw [(hperm.map _).sum_eq, vecGet_keys_map v hnodup]
    congr 1
    apply List.map_congr_left
    intro p _
    rw [sq]
  unfold cosine_similarity
  rw [hie]
  simp only [Bool.or_self, Bool.false_eq_true, if_false]
  rw [hdot]
  rw [if_neg]
  · rw [Real.mul_self_sqrt hSpos.le, div_self (ne_of_gt hSpos)]
  · rw [or_self]
    exact ne_of_gt (Real.sqrt_pos.mpr hSpos)

theorem dedupFirst_ne_nil {l : List String} (h : l ≠ []) : dedupFirst l ≠ [] := by
  obtain ⟨x, xs, rfl⟩ := List.exists_cons_of_ne_nil h
  rw [dedupFirst]
  simp

theorem compute_tf_pos {T : List String} (hT : T ≠ []) :
    ∀ p ∈ compute_tf T, 0 < p.2 ∧ p.1 ∈ T := by
  intro p hp
  have hie : T.isEmpty = false := by
    obtain ⟨x, xs, rfl⟩ := List.exists_cons_of_ne_nil hT
    rfl
  rw [compute_tf, hie] at hp
  simp only [Bool.false_eq_true, if_false] at hp
  obtain ⟨w, hw, rfl⟩ := List.mem_map.mp hp
  have hwT : w ∈ T := (dedupFirst_mem T w).mp hw
  refine ⟨?_, hwT⟩
  apply div_pos
  · exact_mod_cast List.count_pos_iff.mpr hwT
  · exact_mod_cast List.length_pos.mpr hT

theorem idfValue_pair_self {T : List String} {w : String} (hw : w ∈ T) :
    idfValue [T, T] w = Real.log (2 / 3) + 1 := by
  have hdf : docFreq [T, T] w = 2 := by
    simp [docFreq, hw]
  rw [idfValue, hdf]
  norm_num

theorem log_two_thirds_pos : 0 < Real.log (2 / 3) + 1 := by
  have h1 : Real.log (3 / 2) < 3 / 2 - 1 :=
    Real.log_lt_sub_one_of_pos (by norm_num) (by norm_num)
  have h2 : Real.log (2 / 3) = -Real.log (3 / 2) := by
    rw [show ((2:ℝ)/3) = ((3:ℝ)/2)⁻¹ by norm_num, Real.log_inv]
  rw [h2]
  linarith

theorem compute_tf_keys {T : List String} (hT : T ≠ []) :
    (compute_tf T).map Prod.fst = dedupFirst T := by
  have hie : T.isEmpty = false := by
    obtain ⟨x, xs, rfl⟩ := List.exists_cons_of_ne_nil hT
    rfl
  rw [compute_tf, hie]
  simp only [Bool.false_eq_true, if_false, List.map_map]
  have hid : ∀ w ∈ dedupFirst T,
      (Prod.fst ∘ fun w' : String => (w', ((T.count w' : ℚ) / (T.length : ℚ)))) w
        = id w := fun w _ => rfl
  rw [List.map_congr_left hid, List.map_id]

/-- C6 counterexample: `"!"` is a non-empty text, yet ranking it against
itself as the single candidate document yields score `0`, not `1.0`: its
tokenization is empty, so both TF-IDF vectors are empty and cosine
similarity falls back to `0`. -/
theorem cosine_self_counterexample :
    rank_by_similarity "!" [((0 : ℕ), "!")] 1 = [⟨0, 0, "!"⟩] ∧
    ("!" : String) ≠ "" ∧ (0 : ℝ) ≠ 1 := by
  refine ⟨?_, by decide, by norm_num⟩
  have ht : tokenize "!" = [] := by decide
  unfold rank_by_similarity
  rw [if_neg]
  swap
  · intro hc
    rw [Bool.or_eq_true] at hc
    rcases hc with hc | hc
    · exact absurd (of_decide_eq_true hc) (by decide)
    · simp at hc
  rw [scoredList_eq_map]
  simp only [List.map_cons, List.map_nil, ht]
  have hq : compute_tfidf [] (idfValue [[], []]) = [] := by
    rw [compute_tfidf, compute_tf]
    simp
  rw [hq]
  have hc0 : cosine_similarity [] [] = 0 := by
    rw [cosine_similarity]
    simp
  rw [hc0]
  simp [sortDesc, insertDesc]

/-- C6 amended: for every text `a` whose tokenization is non-empty, ranking
`a` as the query against `a` as the single candidate document yields a
single result with similarity score exactly `1` (the idealised real value of
`1.0`). -/
theorem cosine_self_similarity {α : Type} (it : α) (a : String)
    (h : tokenize a ≠ []) :
    rank_by_similarity a [(it, a)] 1 = [⟨it, 1, a⟩] := by
  have ha : a ≠ "" := by
    intro he
    subst he
    exact h rfl
  have hvkeys : (compute_tfidf (tokenize a)
      (idfValue [tokenize a, tokenize a])).map Prod.fst = dedupFirst (tokenize a) := by
    rw [compute_tfidf]
    rw [List.map_map]
    exact compute_tf_keys h
  have hvnodup : ((compute_tfidf (tokenize a)
      (idfValue [tokenize a, tokenize a])).map Prod.fst).Nodup := by
    rw [hvkeys]
    exact dedupFirst_nodup _
  have hvne : compute_tfidf (tokenize a) (idfValue [tokenize a, tokenize a]) ≠ [] := by
    intro he
    have h2 := congrArg (List.map Prod.fst) he
    rw [hvkeys] at h2
    exact dedupFirst_ne_nil h (by simpa using h2)
  have hvpos : ∀ p ∈ compute_tfidf (tokenize a) (idfValue [tokenize a, tokenize a]),
      0 < p.2 := by
    intro p hp
    rw [compute_tfidf] at hp
    obtain ⟨q, hq, rfl⟩ := List.mem_map.mp hp
    have hq2 := compute_tf_pos h q hq
    show 0 < (q.2 : ℝ) * idfValue [tokenize a, tokenize a] q.1
    rw [idfValue_pair_self hq2.2]
    exact mul_pos (by exact_mod_cast hq2.1) log_two_thirds_pos
  unfold rank_by_similarity
  rw [if_neg]
  swap
  · intro hc
    rw [Bool.or_eq_true] at hc
    rcases hc with hc | hc
    · exact ha (of_decide_eq_true hc)
    · simp at hc
  rw [scoredList_eq_map]
  simp only [List.map_cons, List.map_nil]
  rw [cosine_self _ hvne hvnodup hvpos]
  simp [sortDesc, insertDesc]

/-- Witness for C6: the two-letter word `"ab"` tokenizes to a non-empty
token list, and ranking it against itself scores exactly 1. -/
theorem cosine_self_similarity_witness :
    tokenize "ab" ≠ [] ∧
    rank_by_similarity "ab" [((0 : ℕ), "ab")] 1 = [⟨0, 1, "ab"⟩] :=
  ⟨by decide, cosine_self_similarity 0 "ab" (by decide)⟩

/-! ## Claim theorems: world-context selection -/

/-- C5 amended: the world-selection stage of `select_for_writing` never
returns an empty world list when world cards exist — either the
above-threshold ranked cards, or the first three cards as fallback.  (The
budget-allocation pass that follows may still trim the world group to
empty; see the counterexample.) -/
theorem selectWorld_ne_nil (chapter_goal : String) (world_cards : List WorldCard)
    (h : world_cards ≠ []) : selectWorld chapter_goal world_cards ≠ [] := by
  have hwc : world_cards.isEmpty = false := by
    obtain ⟨x, xs, rfl⟩ := List.exists_cons_of_ne_nil h
    rfl
  have key : ∀ w : List WorldCard,
      (if w.isEmpty ∧ ¬world_cards.isEmpty then world_cards.take 3 else w) ≠ [] := by
    intro w
    by_cases hc : w.isEmpty ∧ ¬world_cards.isEmpty
    · rw [if_pos hc]
      obtain ⟨x, xs, rfl⟩ := List.exists_cons_of_ne_nil h
      simp
    · rw [if_neg hc]
      intro hnil
      apply hc
      refine ⟨by rw [hnil]; rfl, by simp [hwc]⟩
  unfold selectWorld
  exact key _

/-- Witness for C5's amended theorem at a single world card and empty goal. -/
theorem selectWorld_ne_nil_witness :
    ([⟨"W", "location", "d"⟩] : List WorldCard) ≠ [] ∧
    selectWorld "" [⟨"W", "location", "d"⟩] ≠ [] :=
  ⟨by simp, selectWorld_ne_nil "" [⟨"W", "location", "d"⟩] (by simp)⟩

/-- Reduction of the world field of `allocate_context` under the default
priority order: characters are admitted first into the cards budget, and
world cards last, continuing from the characters' counter. -/
theorem allocate_context_none_world (cfg : BudgetConfig)
    (chars : List CharacterCard) (world : List WorldCard)
    (style : Option StyleCard) (rules : Option RulesCard)
    (facts : List Fact) (summaries : List ChapterSummary) :
    (allocate_context cfg ⟨chars, world, style, rules, facts, summaries⟩ none).world =
      (admitGreedy (fun w => estimate_tokens (serialize_world w))
        (get_budget cfg "cards") world
        (admitGreedy (fun c => estimate_tokens (serialize_character c))
          (get_budget cfg "cards") chars 0).2).1 := rfl

theorem admitGreedy_single_over {α : Type} (cost : α → ℕ) (budget : ℤ) (x : α)
    (h : ¬(((0 : ℕ) : ℤ) + ((cost x : ℕ) : ℤ) ≤ budget)) :
    admitGreedy cost budget [x] 0 = ([], 0) := by
  rw [admitGreedy, if_neg h]

theorem selectWorld_single_empty_goal (w : WorldCard) :
    selectWorld "" [w] = [w] := by
  have hc1 : ¬(¬([w] : List WorldCard).isEmpty ∧ ("" : String) ≠ "") := by simp
  unfold selectWorld
  rw [if_neg hc1]
  dsimp only
  rw [if_pos ⟨rfl, by simp⟩]
  rfl

/-- C5 counterexample: one world card exists and the selection stage keeps
it, yet the context returned by `select_for_writing` has an empty world
list — the card's serialized text (19250 estimated tokens) exceeds the cards
budget (19200), and the budget allocator drops it. -/
theorem select_for_writing_world_counterexample :
    (select_for_writing {} []
        [⟨"W", "location", String.mk (List.replicate 77000 'x')⟩]
        none none [] [] "" []).world = [] ∧
    ([⟨"W", "location", String.mk (List.replicate 77000 'x')⟩] : List WorldCard)
      ≠ [] ∧
    selectWorld "" [⟨"W", "location", String.mk (List.replicate 77000 'x')⟩]
      = [⟨"W", "location", String.mk (List.replicate 77000 'x')⟩] := by
  have hworld : selectWorld ""
      [⟨"W", "location", String.mk (List.replicate 77000 'x')⟩]
      = [⟨"W", "location", String.mk (List.replicate 77000 'x')⟩] :=
    selectWorld_single_empty_goal _
  refine ⟨?_, List.cons_ne_nil _ _, hworld⟩
  have hcb : get_budget {} "cards" = 19200 := by
    norm_num [get_budget]
    rw [if_neg (by decide)]
    norm_num
  have hcost : estimate_tokens (serialize_world
      ⟨"W", "location", String.mk (List.replicate 77000 'x')⟩) = 19250 := by
    have hda : (serialize_world
        ⟨"W", "location", String.mk (List.replicate 77000 'x')⟩).data
        = 'W' :: ' ' :: List.replicate 77000 'x' := by
      show ("W" ++ " " ++ String.mk (List.replicate 77000 'x')).data = _
      rw [String.data_append, String.data_append]
      rfl
    have hrep : ∀ n : ℕ, (List.replicate n 'x').filter isChineseChar = [] := by
      intro n
      induction n with
      | zero => rfl
      | succ m ih => rw [List.replicate_succ, List.filter_cons]; simp [ih, isChineseChar]
    have hfil : (('W' :: ' ' :: List.replicate 77000 'x').filter isChineseChar) = [] := by
      rw [List.filter_cons, List.filter_cons]
      norm_num [isChineseChar]
      exact hrep _
    have hlen : (serialize_world
        ⟨"W", "location", String.mk (List.replicate 77000 'x')⟩).length = 77002 := by
      show (serialize_world
        ⟨"W", "location", String.mk (List.replicate 77000 'x')⟩).data.length = 77002
      rw [hda, List.length_cons, List.length_cons, List.length_replicate]
    unfold estimate_tokens
    rw [hda, hfil, hlen]
    norm_num
    rfl
  have hchars : selectCharacters "" [] [] = [] := by
    unfold selectCharacters
    rw [if_neg (by simp)]
    rfl
  have hfacts : selectFacts "" [] = [] := by
    unfold selectFacts
    rw [if_neg (by simp)]
  have hsums : selectSummaries "" [] = [] := by
    unfold selectSummaries
    rw [if_neg (by simp)]
  have hsel : select_for_writing {} []
      [⟨"W", "location", String.mk (List.replicate 77000 'x')⟩]
      none none [] [] "" [] =
      allocate_context {}
        ⟨[], [⟨"W", "location", String.mk (List.replicate 77000 'x')⟩],
          none, none, [], []⟩ none := by
    unfold select_for_writing
    rw [hworld, hchars, hfacts, hsums]
  have hinner : (admitGreedy (fun c => estimate_tokens (serialize_character c))
      19200 ([] : List CharacterCard) 0) = (([], 0) : List CharacterCard × ℕ) := rfl
  have hsnd : ((([], 0) : List CharacterCard × ℕ)).2 = 0 := rfl
  have hover : ¬((((0 : ℕ) : ℤ)) + ((estimate_tokens (serialize_world
      ⟨"W", "location", String.mk (List.replicate 77000 'x')⟩) : ℕ) : ℤ) ≤ 19200) := by
    rw [hcost]
    norm_num
  conv_lhs => rw [hsel, allocate_context_none_world]
  conv_lhs => rw [hcb, hinner, hsnd]
  conv_lhs => rw [admitGreedy_single_over
    (fun w => estimate_tokens (serialize_world w)) 19200
    (⟨"W", "location", String.mk (List.replicate 77000 'x')⟩ : WorldCard) hover]

/-! ## Claim theorems: the orchestrator -/

/-- Every writer result recorded by a quality-loop run that did not abort
with a fatal write failure is a successful one. -/
theorem loopIter_writes_ok (writer : ℕ → Option String → AgentResult)
    (reviewer : ℕ → AgentResult) :
    ∀ (idxs : List ℕ) (s : LoopState),
      (∀ res ∈ s.write_results, res.success = true) →
      (loopIter writer reviewer idxs s).2 = false →
      ∀ res ∈ (loopIter writer reviewer idxs s).1.write_results,
        res.success = true := by
  intro idxs
  induction idxs with
  | nil =>
      intro s h _
      simpa [loopIter] using h
  | cons i rest ih =>
      intro s h hfalse
      simp only [loopIter] at hfalse ⊢
      split at hfalse
      next hwr =>
        exact absurd hfalse (by simp)
      next hwr =>
        rw [if_neg hwr]
        rw [Bool.not_eq_false] at hwr
        split at hfalse
        next hrr =>
          rw [if_pos hrr]
          intro res hres
          simp only [List.mem_append, List.mem_singleton] at hres
          rcases hres with hres | hres
          · exact h res hres
          · subst hres
            exact hwr
        next hrr =>
          rw [if_neg hrr]
          split at hfalse
          next hsc =>
            rw [if_pos hsc]
            intro res hres
            simp only [List.mem_append, List.mem_singleton] at hres
            rcases hres with hres | hres
            · exact h res hres
            · subst hres
              exact hwr
          next hsc =>
            rw [if_neg hsc]
            refine ih _ ?_ hfalse
            intro res hres
            simp only [List.mem_append, List.mem_singleton] at hres
            rcases hres with hres | hres
            · exact h res hres
            · subst hres
              exact hwr

/-- C1: in the quality-gated loop (threshold `0.7`,
`MAX_REWRITE_ITERATIONS = 2`), with a succeeding archivist and writer: a
reviewer that always succeeds with overall score `0.9` yields exactly one
write and one review pass, the rewrite counter stays `0`, and the controller
proceeds to editing and then waiting; a reviewer that always succeeds with
overall score `0.3` yields exactly `MAX_REWRITE_ITERATIONS + 1` write
passes, after which the controller proceeds to editing and waiting
regardless of the score. -/
theorem quality_gate_iteration_counts
    (archivist editor : AgentResult)
    (writer : ℕ → Option String → AgentResult)
    (reviewer9 reviewer3 : ℕ → AgentResult) (rv9 rv3 : ℕ → Review)
    (ha : archivist.success = true)
    (hw : ∀ i fb, (writer i fb).success = true)
    (hr9 : ∀ i, (reviewer9 i).success = true)
    (hrev9 : ∀ i, (reviewer9 i).review = some (rv9 i))
    (hs9 : ∀ i, (rv9 i).overall_score = 9/10)
    (hr3 : ∀ i, (reviewer3 i).success = true)
    (hrev3 : ∀ i, (reviewer3 i).review = some (rv3 i))
    (hs3 : ∀ i, (rv3 i).overall_score = 3/10) :
    ((start_session archivist writer reviewer9 editor).write_calls = 1 ∧
     (start_session archivist writer reviewer9 editor).review_calls = 1 ∧
     (start_session archivist writer reviewer9 editor).result.rewrite_count = 0 ∧
     (start_session archivist writer reviewer9 editor).result.success = true ∧
     (start_session archivist writer reviewer9 editor).result.status =
       SessionStatus.waiting ∧
     (start_session archivist writer reviewer9 editor).trace =
       [SessionStatus.briefing, SessionStatus.writing, SessionStatus.reviewing,
        SessionStatus.editing, SessionStatus.waiting]) ∧
    ((start_session archivist writer reviewer3 editor).write_calls =
       MAX_REWRITE_ITERATIONS + 1 ∧
     (start_session archivist writer reviewer3 editor).review_calls =
       MAX_REWRITE_ITERATIONS + 1 ∧
     (start_session archivist writer reviewer3 editor).result.rewrite_count =
       MAX_REWRITE_ITERATIONS ∧
     (start_session archivist writer reviewer3 editor).result.success = true ∧
     (start_session archivist writer reviewer3 editor).result.status =
       SessionStatus.waiting ∧
     (start_session archivist writer reviewer3 editor).trace =
       [SessionStatus.briefing, SessionStatus.writing, SessionStatus.reviewing,
        SessionStatus.writing, SessionStatus.reviewing, SessionStatus.writing,
        SessionStatus.reviewing, SessionStatus.editing, SessionStatus.waiting]) := by
  have h9 : ((9:ℚ)/10 ≥ QUALITY_THRESHOLD) := by norm_num [QUALITY_THRESHOLD]
  have h3 : ¬((3:ℚ)/10 ≥ QUALITY_THRESHOLD) := by norm_num [QUALITY_THRESHOLD]
  have hrange : List.range (MAX_REWRITE_ITERATIONS + 1) = [0, 1, 2] := rfl
  constructor
  · simp [start_session, hrange, loopIter, loopFeedback, ha, hw, hr9, hrev9,
      hs9, h9]
  · simp [start_session, hrange, loopIter, loopFeedback, ha, hw, hr3, hrev3,
      hs3, h3, MAX_REWRITE_ITERATIONS]

/-- C2 (amended): in `start_session` an archivist failure is fatal (error
result with message "场景简报生成失败"); a writer failure is fatal — a
successful session records only successful writer results, and a failure of
the first write call yields the error result "草稿生成失败"; a reviewer
failure is non-fatal: the loop breaks and the session still proceeds to
editing and then waiting with a success result. Contrary to the spec, the
editor result's success flag is never checked: the session outcome depends on
the editor result only through its draft and version payloads, so an editor
failure is not fatal. -/
theorem agent_failure_handling
    (archivist editor : AgentResult)
    (writer : ℕ → Option String → AgentResult)
    (reviewer : ℕ → AgentResult) :
    (archivist.success = false →
      (start_session archivist writer reviewer editor).result.success = false ∧
      (start_session archivist writer reviewer editor).result.status =
        SessionStatus.error ∧
      (start_session archivist writer reviewer editor).result.error =
        some "场景简报生成失败") ∧
    ((start_session archivist writer reviewer editor).result.success = true →
      ∀ res ∈ (start_session archivist writer reviewer editor).write_results,
        res.success = true) ∧
    (archivist.success = true → (writer 0 none).success = false →
      (start_session archivist writer reviewer editor).result.success = false ∧
      (start_session archivist writer reviewer editor).result.status =
        SessionStatus.error ∧
      (start_session archivist writer reviewer editor).result.error =
        some "草稿生成失败") ∧
    (archivist.success = true → (∀ i fb, (writer i fb).success = true) →
      (reviewer 0).success = false →
      (start_session archivist writer reviewer editor).result.success = true ∧
      (start_session archivist writer reviewer editor).result.status =
        SessionStatus.waiting ∧
      (start_session archivist writer reviewer editor).write_calls = 1 ∧
      (start_session archivist writer reviewer editor).trace =
        [SessionStatus.briefing, SessionStatus.writing, SessionStatus.reviewing,
         SessionStatus.editing, SessionStatus.waiting]) ∧
    (∀ e₁ e₂ : AgentResult, e₁.draft = e₂.draft → e₁.version = e₂.version →
      start_session archivist writer reviewer e₁ =
        start_session archivist writer reviewer e₂) := by
  have hrange : List.range (MAX_REWRITE_ITERATIONS + 1) = [0, 1, 2] := rfl
  refine ⟨?_, ?_, ?_, ?_, ?_⟩
  · intro hb
    refine ⟨?_, ?_, ?_⟩ <;> simp [start_session, hb]
  · intro hsucc
    by_cases hb : archivist.success = false
    · exact absurd hsucc (by simp [start_session, hb])
    · simp only [start_session, if_neg hb] at hsucc ⊢
      split at hsucc
      next h2 =>
        simp at hsucc
      next h2 =>
        rw [if_neg h2]
        dsimp only
        refine loopIter_writes_ok writer reviewer _ _ ?_ ?_
        · intro res hres
          simp at hres
        · simp only [Bool.not_eq_true] at h2
          exact h2
  · intro hb hw0
    refine ⟨?_, ?_, ?_⟩ <;>
      simp [start_session, hrange, loopIter, loopFeedback, hb, hw0]
  · intro hb hw hr0
    refine ⟨?_, ?_, ?_, ?_⟩ <;>
      simp [start_session, hrange, loopIter, loopFeedback, hb, hw, hr0]
  · intro e₁ e₂ hd hv
    by_cases hb : archivist.success = false
    · simp [start_session, hb]
    · simp only [start_session, if_neg hb]
      split
      · rfl
      · rw [hd, hv]

theorem quality_gate_iteration_counts_witness :
    (start_session { success := true }
        (fun _ _ => { success := true, draft := some "d" })
        (fun _ => { success := true, review := some ⟨"good", 9/10⟩ })
        { success := true }).write_calls = 1 ∧
    (start_session { success := true }
        (fun _ _ => { success := true, draft := some "d" })
        (fun _ => { success := true, review := some ⟨"bad", 3/10⟩ })
        { success := true }).write_calls = MAX_REWRITE_ITERATIONS + 1 := by
  have h := quality_gate_iteration_counts
    { success := true } { success := true }
    (fun _ _ => { success := true, draft := some "d" })
    (fun _ => { success := true, review := some ⟨"good", 9/10⟩ })
    (fun _ => { success := true, review := some ⟨"bad", 3/10⟩ })
    (fun _ => ⟨"good", 9/10⟩) (fun _ => ⟨"bad", 3/10⟩)
    rfl (fun _ _ => rfl) (fun _ => rfl) (fun _ => rfl) (fun _ => rfl)
    (fun _ => rfl) (fun _ => rfl) (fun _ => rfl)
  exact ⟨h.1.1, h.2.1⟩

/-- C2 counterexample: an editor failure is not fatal. With a succeeding
archivist, writer, and reviewer but an editor whose result has
`success = false`, `start_session` still returns a success result with
status waiting — the editor result is never checked. -/
theorem editor_failure_not_fatal_counterexample :
    ({ success := false } : AgentResult).success = false ∧
    (start_session { success := true }
        (fun _ _ => { success := true, draft := some "d" })
        (fun _ => { success := true, review := some ⟨"good", 9/10⟩ })
        { success := false }).result.success = true ∧
    (start_session { success := true }
        (fun _ _ => { success := true, draft := some "d" })
        (fun _ => { success := true, review := some ⟨"good", 9/10⟩ })
        { success := false }).result.status = SessionStatus.waiting := by
  have h9 : ((9:ℚ)/10 ≥ QUALITY_THRESHOLD) := by norm_num [QUALITY_THRESHOLD]
  have hrange : List.range (MAX_REWRITE_ITERATIONS + 1) = [0, 1, 2] := rfl
  refine ⟨rfl, ?_, ?_⟩ <;>
    simp [start_session, hrange, loopIter, loopFeedback, h9]

theorem agent_failure_handling_witness :
    (start_session { success := false }
        (fun _ _ => { success := true, draft := some "d" })
        (fun _ => { success := true, review := some ⟨"good", 9/10⟩ })
        { success := true }).result.status = SessionStatus.error ∧
    (start_session { success := true }
        (fun _ _ => ({ success := false } : AgentResult))
        (fun _ => { success := true, review := some ⟨"good", 9/10⟩ })
        { success := true }).result.error = some "草稿生成失败" ∧
    (start_session { success := true }
        (fun _ _ => { success := true, draft := some "d" })
        (fun _ => ({ success := false } : AgentResult))
        { success := true }).result.success = true ∧
    (∀ res ∈ (start_session { success := true }
        (fun _ _ => { success := true, draft := some "d" })
        (fun _ => ({ success := false } : AgentResult))
        { success := true }).write_results, res.success = true) ∧
    start_session { success := true }
        (fun _ _ => { success := true, draft := some "d" })
        (fun _ => ({ success := false } : AgentResult))
        { success := false, draft := some "e", version := some 1 } =
      start_session { success := true }
        (fun _ _ => { success := true, draft := some "d" })
        (fun _ => ({ success := false } : AgentResult))
        { success := true, draft := some "e", version := some 1 } := by
  have h1 := agent_failure_handling { success := false } { success := true }
    (fun _ _ => { success := true, draft := some "d" })
    (fun _ => { success := true, review := some ⟨"good", 9/10⟩ })
  have h2 := agent_failure_handling { success := true } { success := true }
    (fun _ _ => ({ success := false } : AgentResult))
    (fun _ => { success := true, review := some ⟨"good", 9/10⟩ })
  have h3 := agent_failure_handling { success := true } { success := true }
    (fun _ _ => { success := true, draft := some "d" })
    (fun _ => ({ success := false } : AgentResult))
  refine ⟨(h1.1 rfl).2.1, (h2.2.2.1 rfl rfl).2.2, ?_, ?_, ?_⟩
  · exact (h3.2.2.2.1 rfl (fun _ _ => rfl) rfl).1
  · exact h3.2.1 (h3.2.2.2.1 rfl (fun _ _ => rfl) rfl).1
  · exact h3.2.2.2.2 { success := false, draft := some "e", version := some 1 }
      { success := true, draft := some "e", version := some 1 } rfl rfl

end CursorWriting
